import Mathlib

/-!
# OptiTask: verification of the dependency-graph builder and work-hour scheduler

A shallow embedding of the OptiTask task manager (model.py, `test.py`).

Modelling conventions:
* Calendar dates (`t_deadline`, parsed from "YYYY-MM-DD" strings) are modelled
  as natural numbers (day ordinals); the code only groups by date equality and
  sorts dates chronologically, both of which are preserved by any
  order-embedding into `Nat`.
* Timestamps produced by the scheduler are modelled as minutes elapsed since
  00:00 of the current date (the date `datetime.today()` at which
  `generate_dependencies_and_schedule` runs).  09:00 today is `540`,
  17:00 today is `1020`, 09:00 tomorrow is `1980`, and so on.  One day is
  `1440` minutes; `m / 1440` is the day a timestamp falls on and `m % 1440`
  its time of day.
* Python dicts (`dependencies`, the `networkx` adjacency structure, the
  Kahn in-degree map) are modelled as insertion-ordered association lists,
  matching Python's insertion-ordered dict semantics.
* `nx.topological_sort` is modelled by the Kahn algorithm networkx
  implements: initial in-degree map and zero-in-degree list built in node
  insertion order, ready nodes processed from the ready list with newly
  ready successors appended, `NetworkXUnfeasible` (modelled as `none`)
  exactly when the in-degree map is non-empty at exhaustion.
-/

/-- The `OTask` class of model.py.  All ten fields, in declaration order.
`t_dependencies` is `[]` and the two timestamps are `none` on construction. -/
structure OTask where
  t_id : Nat
  t_name : String
  t_description : String
  t_priority : Nat
  t_deadline : Nat
  t_duration : Nat
  t_status : String
  t_dependencies : List Nat
  t_start_time : Option Nat
  t_end_time : Option Nat
deriving DecidableEq, Repr

/-- `OTask.__init__`: a freshly constructed task, with empty dependencies and
no timestamps. -/
def newTask (i : Nat) (nm ds : String) (pri dl dur : Nat) (st : String) : OTask :=
  OTask.mk i nm ds pri dl dur st [] none none

/-- Field update used by `generate_dependencies_and_schedule` line 111:
`task.t_dependencies = ...`. -/
def setDeps (t : OTask) (d : List Nat) : OTask :=
  OTask.mk t.t_id t.t_name t.t_description t.t_priority t.t_deadline t.t_duration
    t.t_status d t.t_start_time t.t_end_time

/-- Field update used by the scheduler (lines 135 and 137):
`task.t_start_time = ...; task.t_end_time = ...`. -/
def setTimes (t : OTask) (s e : Option Nat) : OTask :=
  OTask.mk t.t_id t.t_name t.t_description t.t_priority t.t_deadline t.t_duration
    t.t_status t.t_dependencies s e

/-- Field update used by `complete_task`: `t.t_status = "done"`. -/
def setStatus (t : OTask) (st : String) : OTask :=
  OTask.mk t.t_id t.t_name t.t_description t.t_priority t.t_deadline t.t_duration
    st t.t_dependencies t.t_start_time t.t_end_time

/-! ## Grouping by deadline (`defaultdict(list)` at lines 86-91) -/

/-- Append `t` to the group of deadline `d`, creating the group at the end
if absent — the effect of `grouped[dt].append(task)` on a `defaultdict`. -/
def groupAdd : List (Nat × List OTask) → Nat → OTask → List (Nat × List OTask)
  | [], d, t => [(d, [t])]
  | e :: rest, d, t =>
    if e.1 = d then (e.1, e.2 ++ [t]) :: rest else e :: groupAdd rest d t

/-- Lines 89-91: group the task list by exact deadline equality, keys in
first-encounter order, each group in task-list order. -/
def groupByDeadline (ts : List OTask) : List (Nat × List OTask) :=
  ts.foldl (fun gs t => groupAdd gs t.t_deadline t) []

/-- `grouped[deadline]` (missing keys never looked up by the code; an empty
list is returned for them, producing no events, matching `defaultdict`). -/
def getGroup (gs : List (Nat × List OTask)) (d : Nat) : List OTask :=
  ((gs.find? (fun e => e.1 = d)).map (fun e => e.2)).getD []

/-- The keys of the grouping dict, in insertion order (`grouped.keys()`). -/
def keysOf (gs : List (Nat × List OTask)) : List Nat := gs.map (fun e => e.1)

/-! ## Sorting (lines 93 and 96) -/

/-- The key order of `sorted(grouped[deadline], key=lambda t: (t.t_priority,
t.t_id))`: lexicographic on `(priority, id)`.  Python's `sorted` is a stable
sort; `List.insertionSort` with this (total, transitive) relation is also
stable, so it computes the same permutation. -/
def lexLe (a b : OTask) : Prop :=
  a.t_priority < b.t_priority ∨ (a.t_priority = b.t_priority ∧ a.t_id ≤ b.t_id)

instance : DecidableRel lexLe := fun a b => by
  unfold lexLe; exact inferInstance

instance : IsTotal OTask lexLe := by
  constructor; intro a b; unfold lexLe; omega

instance : IsTrans OTask lexLe := by
  constructor; intro a b c; unfold lexLe; omega

/-- Line 96: the deadline group sorted by `(priority, id)`. -/
def sortG (l : List OTask) : List OTask := List.insertionSort lexLe l

/-- Line 93: `sorted_deadlines = sorted(grouped.keys())`. -/
def sortedKeys (gs : List (Nat × List OTask)) : List Nat :=
  List.insertionSort (fun a b => a ≤ b) (keysOf gs)

/-! ## The dependency-append events (lines 95-108)

The Python code threads one dict through a nested loop of
`dependencies.setdefault(tgt, []).append(src)` calls.  We record the exact
sequence of `(tgt, src)` append events and replay them into the dict; the
replay is the same sequence of dict operations the Python loop performs. -/

/-- Lines 99-101: for positions `x < y` of the sorted group, append
`(task_list[y].id, task_list[x].id)`, outer loop on `x`. -/
def sameDayEv : List OTask → List (Nat × Nat)
  | [] => []
  | t :: rest => rest.map (fun u => (u.t_id, t.t_id)) ++ sameDayEv rest

/-- Lines 104-108: every task of the current (sorted) group becomes a
dependency of every task of the next non-empty deadline's group (which is
iterated in raw, unsorted order). -/
def crossEv (srcs tgts : List OTask) : List (Nat × Nat) :=
  srcs.foldr (fun s acc => tgts.map (fun t => (t.t_id, s.t_id)) ++ acc) []

/-- Lines 95-108: iterate the sorted deadlines; same-day events first, then
cross-day events to the next deadline group when one exists. -/
def eventsLoop (gs : List (Nat × List OTask)) : List Nat → List (Nat × Nat)
  | [] => []
  | d :: rest =>
    sameDayEv (sortG (getGroup gs d)) ++
      ((match rest with
        | [] => []
        | d2 :: _ => crossEv (sortG (getGroup gs d)) (getGroup gs d2)) ++
        eventsLoop gs rest)

/-- The full stream of dependency-append events of one recompute. -/
def events (ts : List OTask) : List (Nat × Nat) :=
  eventsLoop (groupByDeadline ts) (sortedKeys (groupByDeadline ts))

/-- `dependencies.setdefault(k, []).append(v)` on an insertion-ordered dict. -/
def appendDep : List (Nat × List Nat) → Nat → Nat → List (Nat × List Nat)
  | [], k, v => [(k, [v])]
  | e :: rest, k, v =>
    if e.1 = k then (e.1, e.2 ++ [v]) :: rest else e :: appendDep rest k v

/-- Replay the event stream into the `dependencies` dict. -/
def replayDeps (evs : List (Nat × Nat)) : List (Nat × List Nat) :=
  evs.foldl (fun m p => appendDep m p.1 p.2) []

/-- `dependencies.get(k, [])`. -/
def getDeps (m : List (Nat × List Nat)) (k : Nat) : List Nat :=
  ((m.find? (fun e => e.1 = k)).map (fun e => e.2)).getD []

/-! ## The networkx digraph (lines 113-117) -/

/-- A `networkx.DiGraph`: node list in insertion order and an
insertion-ordered successor-list adjacency dict (parallel edges collapse,
re-adding an existing node or edge is a no-op, as in networkx). -/
structure Graph where
  nodes : List Nat
  adj : List (Nat × List Nat)
deriving DecidableEq, Repr

/-- Successors of `u` (`G.edges(node)` / `G.neighbors(node)` order). -/
def adjOf (g : Graph) (u : Nat) : List Nat :=
  ((g.adj.find? (fun e => e.1 = u)).map (fun e => e.2)).getD []

/-- `G.add_node(n)`: append if absent. -/
def addNodeG (g : Graph) (n : Nat) : Graph :=
  if n ∈ g.nodes then g else Graph.mk (g.nodes ++ [n]) g.adj

/-- Append `v` to `u`'s successor list if not already present. -/
def adjInsert : List (Nat × List Nat) → Nat → Nat → List (Nat × List Nat)
  | [], u, v => [(u, [v])]
  | e :: rest, u, v =>
    if e.1 = u then
      (if v ∈ e.2 then e :: rest else (e.1, e.2 ++ [v]) :: rest)
    else e :: adjInsert rest u v

/-- `G.add_edge(u, v)`: ensure both endpoints are nodes, record the edge. -/
def addEdgeG (g : Graph) (u v : Nat) : Graph :=
  Graph.mk (addNodeG (addNodeG g u) v).nodes (adjInsert g.adj u v)

/-- Lines 113-117: add every task's id as a node and an edge
`dep → task.t_id` for each recorded dependency. -/
def buildStep (g : Graph) (t : OTask) : Graph :=
  t.t_dependencies.foldl (fun g2 d => addEdgeG g2 d t.t_id) (addNodeG g t.t_id)

/-- The dependency digraph of a task list. -/
def buildGraph (ts : List OTask) : Graph :=
  ts.foldl buildStep (Graph.mk [] [])

/-- The edge relation of the digraph. -/
def EdgeRel (g : Graph) (u v : Nat) : Prop := v ∈ adjOf g u

instance (g : Graph) : DecidableRel (EdgeRel g) := fun u v => by
  unfold EdgeRel; exact inferInstance

/-! ## Kahn topological sort (`nx.topological_sort`, lines 119-123) -/

/-- Distinct predecessors of `k`, in node order (the networkx `pred` dict). -/
def predsOf (g : Graph) (k : Nat) : List Nat :=
  g.nodes.filter (fun u => decide (k ∈ adjOf g u))

/-- Number of predecessors of `k` that are not yet in `out`; with `out = []`
this is networkx's `in_degree`. -/
def cntOut (g : Graph) (out : List Nat) (k : Nat) : Nat :=
  ((predsOf g k).filter (fun u => !decide (u ∈ out))).length

/-- `indegree_map = {v: d for v, d in G.in_degree() if d > 0}`. -/
def initIdeg (g : Graph) : List (Nat × Nat) :=
  g.nodes.filterMap (fun n =>
    if cntOut g [] n = 0 then none else some (n, cntOut g [] n))

/-- `zero_indegree = [v for v, d in G.in_degree() if d == 0]`. -/
def initZero (g : Graph) : List Nat :=
  g.nodes.filter (fun n => decide (cntOut g [] n = 0))

/-- `m[k]` on the in-degree map. -/
def lookupKey (m : List (Nat × Nat)) (k : Nat) : Option Nat :=
  (m.find? (fun e => e.1 = k)).map (fun e => e.2)

/-- `m[k] -= 1`. -/
def decKey : List (Nat × Nat) → Nat → List (Nat × Nat)
  | [], _ => []
  | e :: rest, k =>
    if e.1 = k then (e.1, e.2 - 1) :: rest else e :: decKey rest k

/-- `del m[k]`. -/
def delKey : List (Nat × Nat) → Nat → List (Nat × Nat)
  | [], _ => []
  | e :: rest, k => if e.1 = k then rest else e :: delKey rest k

/-- The inner loop of Kahn's algorithm: for each successor `c` of the node
just popped, decrement its in-degree; on reaching zero, delete it from the
map and append it to the ready list.  (A successor absent from the map is
impossible for a fixed graph — networkx raises `RuntimeError` there; the
invariant proofs below show the branch is never taken.) -/
def procChildren : List (Nat × Nat) → List Nat → List Nat →
    List (Nat × Nat) × List Nat
  | ideg, zero, [] => (ideg, zero)
  | ideg, zero, c :: cs =>
    match lookupKey ideg c with
    | none => procChildren ideg zero cs
    | some cnt =>
      if cnt = 1 then procChildren (delKey ideg c) (zero ++ [c]) cs
      else procChildren (decKey ideg c) zero cs

/-- Total weight of the in-degree map. -/
def idegSum (m : List (Nat × Nat)) : Nat := (m.map (fun e => e.2)).sum

/-- The Kahn main loop: pop the last ready node (`zero_indegree.pop()`),
process its successors, emit it.  When the ready list is exhausted, a
non-empty in-degree map means a cycle (`NetworkXUnfeasible`, here `none`).
Structural recursion on a fuel that the invariant proofs show is never
exhausted (each iteration strictly decreases `zero.length + idegSum ideg`). -/
def kahnLoop (g : Graph) : Nat → List (Nat × Nat) → List Nat → List Nat →
    Option (List Nat)
  | _, ideg, [], out => if ideg = [] then some out else none
  | 0, _, _ :: _, _ => none
  | fuel + 1, ideg, z :: zs, out =>
    kahnLoop g fuel
      (procChildren ideg ((z :: zs).dropLast)
        (adjOf g ((z :: zs).getLast (List.cons_ne_nil z zs)))).1
      (procChildren ideg ((z :: zs).dropLast)
        (adjOf g ((z :: zs).getLast (List.cons_ne_nil z zs)))).2
      (out ++ [(z :: zs).getLast (List.cons_ne_nil z zs)])

/-- `list(nx.topological_sort(G))`, or `none` for `NetworkXUnfeasible`. -/
def kahn (g : Graph) : Option (List Nat) :=
  kahnLoop g ((initZero g).length + idegSum (initIdeg g) + 1)
    (initIdeg g) (initZero g) []

/-! ## The work-hour scheduler (lines 125-137) -/

/-- `G.nodes[i]["task"].t_duration`: the duration of the last task in list
order carrying id `i` (re-adding a node overwrites its attribute). -/
def durOf (ts : List OTask) (i : Nat) : Nat :=
  (((ts.reverse).find? (fun t => t.t_id = i)).map (fun t => t.t_duration)).getD 0

/-- Lines 128-137.  `work_start` is minute `540` of day 0 and `work_end`
minute `1020` of day 0 (never advanced — the comparison is always against
17:00 of the *current* date).  If the task does not fit before `work_end`,
the cursor jumps to 09:00 of the day after the cursor's day
(`current_time.replace(hour=9, minute=0) + timedelta(days=1)`).  Returns
`(id, start, end)` per scheduled node. -/
def scheduleLoop (ts : List OTask) : List Nat → Nat → List (Nat × Nat × Nat)
  | [], _ => []
  | i :: rest, cur =>
    (i, (if 1020 < cur + durOf ts i
          then (cur / 1440) * 1440 + 540 + 1440 else cur),
      (if 1020 < cur + durOf ts i
          then (cur / 1440) * 1440 + 540 + 1440 else cur) + durOf ts i) ::
    scheduleLoop ts rest
      ((if 1020 < cur + durOf ts i
          then (cur / 1440) * 1440 + 540 + 1440 else cur) + durOf ts i)

/-- The `(start, end)` pair the schedule assigns to id `i` (last write wins). -/
def schedFind (sc : List (Nat × Nat × Nat)) (i : Nat) : Option (Nat × Nat) :=
  ((sc.reverse).find? (fun e => e.1 = i)).map (fun e => e.2)

/-- Write the scheduled timestamps into a task (lines 135, 137). -/
def assignTimes (sc : List (Nat × Nat × Nat)) (t : OTask) : OTask :=
  match schedFind sc t.t_id with
  | none => t
  | some se => setTimes t (some se.1) (some se.2)

/-! ## `generate_dependencies_and_schedule` (lines 84-137) -/

/-- The task list after line 111: every task's `t_dependencies` replaced by
the freshly built list. -/
def writeDeps (ts : List OTask) : List OTask :=
  ts.map (fun t => setDeps t (getDeps (replayDeps (events ts)) t.t_id))

/-- The graph of line 113-117, built from the rewritten tasks. -/
def builderGraph (ts : List OTask) : Graph := buildGraph (writeDeps ts)

/-- One full recompute.  Returns the post-state of the task registry and a
flag that is `true` exactly when the cycle branch (lines 121-123) ran: the
function printed "Cyclic dependencies detected!" and returned early, after
the dependency rewrite of lines 110-111 but before any timestamp was
written.  No error value reaches the caller in Python — both callers ignore
the `None` return and redirect identically. -/
def recompute (ts : List OTask) : List OTask × Bool :=
  match kahn (builderGraph ts) with
  | none => (writeDeps ts, true)
  | some ord =>
    ((writeDeps ts).map (assignTimes (scheduleLoop (writeDeps ts) ord 540)),
      false)

/-! ## The HTTP-layer operations (lines 153-197) -/

/-- `complete_task` (lines 185-190): set status "done" on every task whose
id matches; nothing else changes and no recompute runs. -/
def complete_task (ts : List OTask) (i : Nat) : List OTask :=
  ts.map (fun t => if t.t_id = i then setStatus t "done" else t)

/-- `delete_task` (lines 192-197): drop every task with the id, recompute. -/
def delete_task (ts : List OTask) (i : Nat) : List OTask × Bool :=
  recompute (ts.filter (fun t => !decide (t.t_id = i)))

/-! ## Intake (`parse_task`, lines 46-82, and `create_task`, lines 153-181)

The regex/NLP collaborators (`re`, `spacy`, `dateparser`, the MeTTa
classifier) are external to the core; following §4.5/§6 of the design they
are modelled by the structured values they extract from the raw text.  The
validation and construction logic of lines 54-82 is translated exactly. -/

/-- What the regex/dateparser/classifier collaborators extract from a raw
input text. -/
structure RawExtract where
  hasDate : Bool
  hasTime : Bool
  dateOk : Bool
  dateVal : Nat
  durMatch : Option (Nat × String)
  nameText : String
  cat : String
deriving DecidableEq, Repr

/-- Does `pat` occur at the head of `hay`? -/
def prefChk : List Char → List Char → Bool
  | [], _ => true
  | _ :: _, [] => false
  | a :: as, b :: bs => a = b && prefChk as bs

/-- Does `pat` occur anywhere inside `hay`? -/
def infChk (pat : List Char) : List Char → Bool
  | [] => pat.isEmpty
  | b :: bs => prefChk pat (b :: bs) || infChk pat bs

/-- Python's `'hour' in unit`. -/
def strContains (needle hay : String) : Bool :=
  infChk needle.toList hay.toList

/-- Lines 54-82 of `parse_task`: reject missing date, missing time, or an
unparsable/past date; otherwise build the task.  The duration defaults to
60, and a matched `(value, unit)` yields `value * 60` minutes when the unit
contains "hour" and `value` minutes otherwise.  There is no range check of
any kind on the duration. -/
def parse_task (counter : Nat) (descr : String) (r : RawExtract) :
    Except String OTask :=
  if !r.hasDate then Except.error "missing_date"
  else if !r.hasTime then Except.error "missing_time"
  else if !r.dateOk then Except.error "invalid_date"
  else
    Except.ok (newTask counter r.nameText descr
      (if r.cat = "professional" then 1 else if r.cat = "personal" then 2 else 3)
      r.dateVal
      (match r.durMatch with
        | none => 60
        | some vu => if strContains "hour" vu.2 then vu.1 * 60 else vu.1)
      "pending")

/-- `create_task` (lines 153-181): parse errors and `(name, deadline)`
duplicates re-render the page with the registry untouched; otherwise the
task is appended and a full recompute runs.  The flag is `true` when the
task was added. -/
def create_task (ts : List OTask) (counter : Nat) (descr : String)
    (r : RawExtract) : List OTask × Bool :=
  match parse_task counter descr r with
  | Except.error _ => (ts, false)
  | Except.ok nt =>
    if ts.any (fun t => t.t_name = nt.t_name && t.t_deadline = nt.t_deadline)
    then (ts, false)
    else ((recompute (ts ++ [nt])).1, true)

/-! ## Auxiliary definitions used by the verification -/

/-- Strict lexicographic `(priority, id)` order. -/
def priLt (a b : OTask) : Prop :=
  a.t_priority < b.t_priority ∨ (a.t_priority = b.t_priority ∧ a.t_id < b.t_id)

/-- Strict lexicographic `(deadline, priority, id)` order — the spec's
"tuple" comparison. -/
def keyLt (a b : OTask) : Prop :=
  a.t_deadline < b.t_deadline ∨ (a.t_deadline = b.t_deadline ∧ priLt a b)

instance : IsTotal Nat (fun a b : Nat => a ≤ b) := ⟨fun a b => Nat.le_total a b⟩

instance : IsTrans Nat (fun a b : Nat => a ≤ b) := ⟨fun _ _ _ => Nat.le_trans⟩

/-- `G.nodes[i]["task"]`-style lookup by id (first occurrence). -/
def taskOf (ts : List OTask) (i : Nat) : Option OTask :=
  ts.find? (fun t => t.t_id = i)

/-- Comparison of ids through the `(deadline, priority, id)` key order of
the tasks carrying them. -/
def idKeyLt (ts : List OTask) (u v : Nat) : Prop :=
  ∃ a b, taskOf ts u = some a ∧ taskOf ts v = some b ∧ keyLt a b

/-- `u` occurs strictly before `v` in `l`. -/
def listBefore (u v : Nat) (l : List Nat) : Prop :=
  ∃ l1 l2, l = l1 ++ u :: l2 ∧ v ∈ l2

/-- A graph as `buildGraph` produces it: no duplicate nodes, no parallel
edges, all edge endpoints registered as nodes. -/
def GraphWF (g : Graph) : Prop :=
  g.nodes.Nodup ∧ (∀ x, (adjOf g x).Nodup) ∧
    ∀ u v, v ∈ adjOf g u → u ∈ g.nodes ∧ v ∈ g.nodes


/-- A directed cycle: a non-empty edge chain returning to its start. -/
def HasCycle (g : Graph) : Prop :=
  ∃ c p, p ≠ [] ∧ List.Chain (EdgeRel g) c p ∧ (c :: p).getLast? = some c

/-! ## Concrete inputs for the spec's scenarios

Deadline dates are encoded order-preservingly: 2025-01-10 as `10`,
2025-01-11 as `11`, and the three-day scenario as days `1`, `2`, `3`. -/

/-- Task A of the spec's concrete scenario: deadline 2025-01-10,
priority 1, duration 60. -/
def exA : OTask := newTask 1 "A" "A" 1 10 60 "pending"

/-- Task B: deadline 2025-01-10, priority 2, duration 30. -/
def exB : OTask := newTask 2 "B" "B" 2 10 30 "pending"

/-- Task C: deadline 2025-01-11, priority 1, duration 60. -/
def exC : OTask := newTask 3 "C" "C" 1 11 60 "pending"

/-- Registry state with a duplicate id and a stale schedule on the second
task: the only way the dependency edge set can contain a cycle. -/
def exT1 : OTask := OTask.mk 1 "x" "x" 1 10 60 "pending" [] none none

/-- Second task with the same id 1, stale dependencies and timestamps. -/
def exT2 : OTask := OTask.mk 1 "y" "y" 2 10 30 "pending" [99] (some 77) (some 137)

/-- Three tasks whose (deadline, priority, id) triples are pairwise
distinct but whose ids are not unique: id 5 occurs on days 1 and 3. -/
def exX : OTask := newTask 5 "X" "X" 1 1 60 "pending"

/-- The middle task, alone on day 2. -/
def exY : OTask := newTask 9 "Y" "Y" 1 2 60 "pending"

/-- The second task with id 5, on day 3. -/
def exZ : OTask := newTask 5 "Z" "Z" 1 3 60 "pending"

/-- Two tasks sharing deadline (day 20) and priority 1, ids 4 < 7. -/
def exP : OTask := newTask 4 "P" "P" 1 20 60 "pending"

/-- The second of the tied pair. -/
def exQ : OTask := newTask 7 "Q" "Q" 1 20 30 "pending"

/-- Extraction of a raw input whose duration phrase parses to 500 minutes
("... for 500 minutes ..."), with a valid future date and a time. -/
def exR500 : RawExtract :=
  RawExtract.mk true true true 10 (some (500, "minute")) "work" "unknown"


/-! ## Lemmas: the dependencies dict -/

theorem getDeps_appendDep (m : List (Nat × List Nat)) (k k' v : Nat) :
    getDeps (appendDep m k v) k' =
      if k = k' then getDeps m k' ++ [v] else getDeps m k' := by
  induction m with
  | nil =>
    by_cases h : k = k' <;> simp [appendDep, getDeps, List.find?, h]
  | cons e rest ih =>
    by_cases he : e.1 = k
    · by_cases hk : k = k'
      · subst hk
        simp [appendDep, getDeps, List.find?, he]
      · have he' : ¬ e.1 = k' := by omega
        simp [appendDep, getDeps, List.find?, he, he', hk]
    · by_cases he' : e.1 = k'
      · have hk : ¬ k = k' := by omega
        have hk2 : ¬ k' = k := by omega
        simp [appendDep, getDeps, List.find?, he, he', hk, hk2]
      · simpa [appendDep, getDeps, List.find?, he, he'] using ih

theorem getDeps_foldl (evs : List (Nat × Nat)) :
    ∀ (m : List (Nat × List Nat)) (k : Nat),
      getDeps (evs.foldl (fun m p => appendDep m p.1 p.2) m) k =
        getDeps m k ++ (evs.filter (fun p => decide (p.1 = k))).map (fun p => p.2) := by
  induction evs with
  | nil => intro m k; simp
  | cons p rest ih =>
    intro m k
    simp only [List.foldl_cons, List.filter_cons, ih, getDeps_appendDep]
    by_cases h : p.1 = k <;> simp [h]

theorem getDeps_replay (evs : List (Nat × Nat)) (k : Nat) :
    getDeps (replayDeps evs) k =
      (evs.filter (fun p => decide (p.1 = k))).map (fun p => p.2) := by
  simpa [getDeps] using getDeps_foldl evs [] k

theorem mem_getDeps_replay {evs : List (Nat × Nat)} {k d : Nat} :
    d ∈ getDeps (replayDeps evs) k ↔ (k, d) ∈ evs := by
  rw [getDeps_replay]
  constructor
  · intro h
    rcases List.mem_map.1 h with ⟨p, hp, hd⟩
    rcases List.mem_filter.1 hp with ⟨hmem, hk⟩
    have : p = (k, d) := by
      rcases p with ⟨p1, p2⟩
      simp at hk hd
      simp [hk, hd]
    exact this ▸ hmem
  · intro h
    exact List.mem_map.2 ⟨(k, d), List.mem_filter.2 ⟨h, by simp⟩, rfl⟩

/-! ## Lemmas: grouping -/

theorem getGroup_groupAdd (gs : List (Nat × List OTask)) (d : Nat) (t : OTask)
    (dl : Nat) :
    getGroup (groupAdd gs d t) dl =
      getGroup gs dl ++ (if d = dl then [t] else []) := by
  induction gs with
  | nil =>
    by_cases h : d = dl <;> simp [groupAdd, getGroup, List.find?, h]
  | cons e rest ih =>
    by_cases he : e.1 = d
    · by_cases hdl : d = dl
      · subst hdl
        simp [groupAdd, getGroup, List.find?, he]
      · have he' : ¬ e.1 = dl := by omega
        simp [groupAdd, getGroup, List.find?, he, he', hdl]
    · by_cases he' : e.1 = dl
      · have hdl : ¬ d = dl := by omega
        have hdl2 : ¬ dl = d := by omega
        simp [groupAdd, getGroup, List.find?, he, he', hdl, hdl2]
      · simpa [groupAdd, getGroup, List.find?, he, he'] using ih

theorem getGroup_foldl (ts : List OTask) :
    ∀ (gs : List (Nat × List OTask)) (dl : Nat),
      getGroup (ts.foldl (fun gs t => groupAdd gs t.t_deadline t) gs) dl =
        getGroup gs dl ++ ts.filter (fun t => decide (t.t_deadline = dl)) := by
  induction ts with
  | nil => intro gs dl; simp
  | cons t rest ih =>
    intro gs dl
    simp only [List.foldl_cons, List.filter_cons, ih, getGroup_groupAdd]
    by_cases h : t.t_deadline = dl <;> simp [h]

theorem getGroup_groupByDeadline (ts : List OTask) (dl : Nat) :
    getGroup (groupByDeadline ts) dl =
      ts.filter (fun t => decide (t.t_deadline = dl)) := by
  simpa [getGroup] using getGroup_foldl ts [] dl

theorem mem_getGroup {ts : List OTask} {dl : Nat} {t : OTask} :
    t ∈ getGroup (groupByDeadline ts) dl ↔ t ∈ ts ∧ t.t_deadline = dl := by
  rw [getGroup_groupByDeadline]
  simp [List.mem_filter]

theorem keysOf_groupAdd (gs : List (Nat × List OTask)) (d : Nat) (t : OTask) :
    keysOf (groupAdd gs d t) =
      if d ∈ keysOf gs then keysOf gs else keysOf gs ++ [d] := by
  induction gs with
  | nil => simp [groupAdd, keysOf]
  | cons e rest ih =>
    by_cases he : e.1 = d
    · simp [groupAdd, keysOf, he]
    · have hne : ¬ d = e.1 := by omega
      simp only [keysOf] at ih ⊢
      simp only [groupAdd, if_neg he, List.map_cons, ih]
      by_cases hd : d ∈ List.map (fun e => e.1) rest <;>
        simp [hd, hne]

theorem keysOf_nodup_foldl (ts : List OTask) :
    ∀ gs : List (Nat × List OTask), (keysOf gs).Nodup →
      (keysOf (ts.foldl (fun gs t => groupAdd gs t.t_deadline t) gs)).Nodup := by
  induction ts with
  | nil => intro gs h; simpa using h
  | cons t rest ih =>
    intro gs h
    simp only [List.foldl_cons]
    apply ih
    rw [keysOf_groupAdd]
    by_cases hd : t.t_deadline ∈ keysOf gs
    · simpa [hd] using h
    · simp only [if_neg hd]
      rw [List.nodup_append]
      refine ⟨h, by simp, ?_⟩
      intro x hx hx2
      simp only [List.mem_singleton] at hx2
      exact hd (hx2 ▸ hx)

theorem keysOf_groupByDeadline_nodup (ts : List OTask) :
    (keysOf (groupByDeadline ts)).Nodup := by
  simpa [keysOf] using keysOf_nodup_foldl ts [] (by simp [keysOf])

theorem mem_keysOf_foldl (ts : List OTask) :
    ∀ (gs : List (Nat × List OTask)) (d : Nat),
      d ∈ keysOf (ts.foldl (fun gs t => groupAdd gs t.t_deadline t) gs) ↔
        d ∈ keysOf gs ∨ ∃ t ∈ ts, t.t_deadline = d := by
  induction ts with
  | nil => intro gs d; simp
  | cons t rest ih =>
    intro gs d
    simp only [List.foldl_cons, ih, keysOf_groupAdd]
    by_cases hd : t.t_deadline ∈ keysOf gs
    · simp only [if_pos hd]
      constructor
      · rintro (h | ⟨u, hu, hud⟩)
        · exact Or.inl h
        · exact Or.inr ⟨u, by simp [hu], hud⟩
      · rintro (h | ⟨u, hu, hud⟩)
        · exact Or.inl h
        · rcases List.mem_cons.1 hu with rfl | hu
          · exact Or.inl (hud ▸ hd)
          · exact Or.inr ⟨u, hu, hud⟩
    · simp only [if_neg hd, List.mem_append]
      constructor
      · rintro ((h | h) | h)
        · exact Or.inl h
        · exact Or.inr ⟨t, by simp [List.mem_singleton.1 h]⟩
        · rcases h with ⟨u, hu, hud⟩
          exact Or.inr ⟨u, by simp [hu], hud⟩
      · rintro (h | ⟨u, hu, hud⟩)
        · exact Or.inl (Or.inl h)
        · rcases List.mem_cons.1 hu with rfl | hu
          · exact Or.inl (Or.inr (by simp [hud]))
          · exact Or.inr ⟨u, hu, hud⟩

theorem mem_keysOf_groupByDeadline {ts : List OTask} {d : Nat} :
    d ∈ keysOf (groupByDeadline ts) ↔ ∃ t ∈ ts, t.t_deadline = d := by
  simpa [groupByDeadline, keysOf] using mem_keysOf_foldl ts [] d

/-! ## Lemmas: sorting -/

theorem keyLt_trans {a b c : OTask} (h1 : keyLt a b) (h2 : keyLt b c) :
    keyLt a c := by
  unfold keyLt priLt at *; omega

theorem keyLt_irrefl (a : OTask) : ¬ keyLt a a := by
  unfold keyLt priLt; omega

theorem sortG_perm (l : List OTask) : (sortG l).Perm l :=
  List.perm_insertionSort lexLe l

theorem mem_sortG {l : List OTask} {t : OTask} : t ∈ sortG l ↔ t ∈ l :=
  (sortG_perm l).mem_iff

theorem sorted_sortG (l : List OTask) : List.Sorted lexLe (sortG l) :=
  List.sorted_insertionSort lexLe l

theorem sortG_ids_nodup {l : List OTask}
    (h : (l.map (fun t => t.t_id)).Nodup) :
    ((sortG l).map (fun t => t.t_id)).Nodup :=
  (((sortG_perm l).map (fun t => t.t_id)).nodup_iff).2 h

/-- In a `lexLe`-sorted list, an element strictly `(priority, id)`-below
another occurs before it: `[a, b]` is a sublist. -/
theorem pair_sublist_of_sorted :
    ∀ (l : List OTask), List.Sorted lexLe l →
      ∀ a b : OTask, a ∈ l → b ∈ l → priLt a b → [a, b].Sublist l := by
  intro l
  induction l with
  | nil => simp
  | cons c rest ih =>
    intro hs a b ha hb hab
    by_cases hac : a = c
    · subst hac
      have hbrest : b ∈ rest := by
        rcases List.mem_cons.1 hb with rfl | h
        · exact absurd hab (by unfold priLt; omega)
        · exact h
      exact (List.singleton_sublist.2 hbrest).cons₂ a
    · have harest : a ∈ rest := by
        rcases List.mem_cons.1 ha with rfl | h
        · exact absurd rfl hac
        · exact h
      by_cases hbc : b = c
      · subst hbc
        have hle : lexLe b a := List.rel_of_sorted_cons hs a harest
        exact absurd hle (by revert hab; unfold priLt lexLe; omega)
      · have hbrest : b ∈ rest := by
          rcases List.mem_cons.1 hb with rfl | h
          · exact absurd rfl hbc
          · exact h
        exact (ih hs.of_cons a b harest hbrest hab).cons c

theorem sortedKeys_sorted (gs : List (Nat × List OTask)) :
    List.Sorted (fun a b : Nat => a ≤ b) (sortedKeys gs) :=
  List.sorted_insertionSort _ _

theorem sortedKeys_perm (gs : List (Nat × List OTask)) :
    (sortedKeys gs).Perm (keysOf gs) :=
  List.perm_insertionSort _ _

theorem mem_sortedKeys {gs : List (Nat × List OTask)} {d : Nat} :
    d ∈ sortedKeys gs ↔ d ∈ keysOf gs :=
  (sortedKeys_perm gs).mem_iff

theorem sortedKeys_nodup {gs : List (Nat × List OTask)}
    (h : (keysOf gs).Nodup) : (sortedKeys gs).Nodup :=
  ((sortedKeys_perm gs).nodup_iff).2 h

/-- Adjacent entries of a sorted duplicate-free `Nat` list strictly grow. -/
theorem sorted_adjacent_lt {l : List Nat}
    (hs : List.Sorted (fun a b : Nat => a ≤ b) l) (hn : l.Nodup)
    {l1 l2 : List Nat} {d d2 : Nat} (heq : l = l1 ++ d :: d2 :: l2) :
    d < d2 := by
  subst heq
  have hsub : [d, d2].Sublist (l1 ++ d :: d2 :: l2) :=
    (((List.nil_sublist l2).cons₂ d2).cons₂ d).trans
      (List.sublist_append_right l1 (d :: d2 :: l2))
  have hle : d ≤ d2 := by
    have := hs.sublist hsub
    simp [List.sorted_cons] at this
    exact this
  have hne : d ≠ d2 := by
    have := hn.sublist hsub
    simp [List.nodup_cons] at this
    exact this
  omega

/-! ## Lemmas: event-stream membership -/

theorem mem_sameDayEv :
    ∀ {l : List OTask} {p : Nat × Nat},
      p ∈ sameDayEv l ↔
        ∃ a b : OTask, [a, b].Sublist l ∧ p = (b.t_id, a.t_id) := by
  intro l
  induction l with
  | nil =>
    intro p
    constructor
    · intro h; simp [sameDayEv] at h
    · rintro ⟨a, b, hsub, rfl⟩
      exact absurd (List.eq_nil_of_sublist_nil hsub) (by simp)
  | cons t rest ih =>
    intro p
    simp only [sameDayEv, List.mem_append, List.mem_map]
    constructor
    · rintro (⟨u, hu, rfl⟩ | hp)
      · exact ⟨t, u, (List.singleton_sublist.2 hu).cons₂ t, rfl⟩
      · rcases ih.1 hp with ⟨a, b, hsub, rfl⟩
        exact ⟨a, b, hsub.cons t, rfl⟩
    · rintro ⟨a, b, hsub, rfl⟩
      cases hsub with
      | cons _ h => exact Or.inr (ih.2 ⟨a, b, h, rfl⟩)
      | cons₂ _ h =>
        exact Or.inl ⟨b, List.singleton_sublist.1 h, rfl⟩

theorem crossEv_cons (s : OTask) (rest tgts : List OTask) :
    crossEv (s :: rest) tgts =
      tgts.map (fun t => (t.t_id, s.t_id)) ++ crossEv rest tgts := rfl

theorem mem_crossEv :
    ∀ {srcs tgts : List OTask} {p : Nat × Nat},
      p ∈ crossEv srcs tgts ↔
        ∃ s ∈ srcs, ∃ t ∈ tgts, p = (t.t_id, s.t_id) := by
  intro srcs
  induction srcs with
  | nil => intro tgts p; simp [crossEv]
  | cons s rest ih =>
    intro tgts p
    rw [crossEv_cons]
    simp only [List.mem_append, List.mem_map]
    constructor
    · rintro (⟨t, ht, rfl⟩ | hp)
      · exact ⟨s, by simp, t, ht, rfl⟩
      · rcases ih.1 hp with ⟨s', hs', t, ht, rfl⟩
        exact ⟨s', by simp [hs'], t, ht, rfl⟩
    · rintro ⟨s', hs', t, ht, rfl⟩
      rcases List.mem_cons.1 hs' with rfl | hs'
      · exact Or.inl ⟨t, ht, rfl⟩
      · exact Or.inr (ih.2 ⟨s', hs', t, ht, rfl⟩)

theorem eventsLoop_cases {gs : List (Nat × List OTask)} :
    ∀ {l : List Nat} {p : Nat × Nat}, p ∈ eventsLoop gs l →
      (∃ d ∈ l, p ∈ sameDayEv (sortG (getGroup gs d))) ∨
      (∃ d d2 l1 l2, l = l1 ++ d :: d2 :: l2 ∧
        p ∈ crossEv (sortG (getGroup gs d)) (getGroup gs d2)) := by
  intro l
  induction l with
  | nil => intro p hp; simp [eventsLoop] at hp
  | cons d rest ih =>
    intro p hp
    cases rest with
    | nil =>
      simp only [eventsLoop, List.mem_append] at hp
      rcases hp with h | h | h
      · exact Or.inl ⟨d, by simp, h⟩
      · simp at h
      · simp [eventsLoop] at h
    | cons d2 l2 =>
      rw [eventsLoop] at hp
      simp only [List.mem_append] at hp
      rcases hp with h | h | h
      · exact Or.inl ⟨d, by simp, h⟩
      · exact Or.inr ⟨d, d2, [], l2, by simp, h⟩
      · rcases ih h with ⟨d', hd', hmem⟩ | ⟨d', d2', l1, l2', heq, hmem⟩
        · exact Or.inl ⟨d', by simp [hd'], hmem⟩
        · exact Or.inr ⟨d', d2', d :: l1, l2', by simp [heq], hmem⟩

theorem sameDayEv_subset_eventsLoop {gs : List (Nat × List OTask)} :
    ∀ {l : List Nat} {d : Nat}, d ∈ l →
      ∀ {p : Nat × Nat}, p ∈ sameDayEv (sortG (getGroup gs d)) →
        p ∈ eventsLoop gs l := by
  intro l
  induction l with
  | nil => simp
  | cons d0 rest ih =>
    intro d hd p hp
    rcases List.mem_cons.1 hd with rfl | hd
    · simp only [eventsLoop, List.mem_append]
      exact Or.inl hp
    · simp only [eventsLoop, List.mem_append]
      exact Or.inr (Or.inr (ih hd hp))

/-! ## Lemmas: structure of the event stream -/

/-- Every dependency-append event `(k, d)` of a recompute comes from a
source task `a` (id `d`) and a target task `b` (id `k`) with either
`a` strictly earlier in `b`'s own sorted deadline group, or `a` in the
deadline group immediately preceding `b`'s. -/
theorem events_struct {ts : List OTask} {p : Nat × Nat}
    (hp : p ∈ events ts) :
    ∃ a b : OTask, a ∈ ts ∧ b ∈ ts ∧ p = (b.t_id, a.t_id) ∧
      (a.t_deadline < b.t_deadline ∨
        (a.t_deadline = b.t_deadline ∧
          [a, b].Sublist (sortG (getGroup (groupByDeadline ts) a.t_deadline)))) := by
  rcases eventsLoop_cases hp with
    ⟨d, _, hmem⟩ | ⟨d, d2, l1, l2, heq, hmem⟩
  · rcases mem_sameDayEv.1 hmem with ⟨a, b, hsub, rfl⟩
    have ha : a ∈ sortG (getGroup (groupByDeadline ts) d) :=
      hsub.subset (by simp)
    have hb : b ∈ sortG (getGroup (groupByDeadline ts) d) :=
      hsub.subset (by simp)
    have ha' := mem_getGroup.1 (mem_sortG.1 ha)
    have hb' := mem_getGroup.1 (mem_sortG.1 hb)
    exact ⟨a, b, ha'.1, hb'.1, rfl,
      Or.inr ⟨by rw [ha'.2, hb'.2], by rw [ha'.2]; exact hsub⟩⟩
  · rcases mem_crossEv.1 hmem with ⟨s, hs, t, ht, rfl⟩
    have hs' := mem_getGroup.1 (mem_sortG.1 hs)
    have ht' := mem_getGroup.1 ht
    have hlt : d < d2 :=
      sorted_adjacent_lt (sortedKeys_sorted _)
        (sortedKeys_nodup (keysOf_groupByDeadline_nodup ts)) heq
    exact ⟨s, t, hs'.1, ht'.1, rfl, Or.inl (by omega)⟩

/-- Every event's source id is the id of some task of the input. -/
theorem events_src_mem {ts : List OTask} {k d : Nat}
    (hp : (k, d) ∈ events ts) : ∃ a ∈ ts, a.t_id = d := by
  rcases events_struct hp with ⟨a, _, ha, _, hpe, _⟩
  exact ⟨a, ha, by simpa using congrArg Prod.snd hpe.symm⟩

/-- Every event's target id is the id of some task of the input. -/
theorem events_tgt_mem {ts : List OTask} {k d : Nat}
    (hp : (k, d) ∈ events ts) : ∃ b ∈ ts, b.t_id = k := by
  rcases events_struct hp with ⟨_, b, _, hb, hpe, _⟩
  exact ⟨b, hb, by simpa using congrArg Prod.fst hpe.symm⟩

/-! ## Lemmas: looking tasks up by id -/

theorem taskOf_eq_of_nodup :
    ∀ {ts : List OTask}, (ts.map (fun t => t.t_id)).Nodup →
      ∀ {t : OTask}, t ∈ ts → taskOf ts t.t_id = some t := by
  intro ts
  induction ts with
  | nil => intro _ t ht; simp at ht
  | cons a rest ih =>
    intro h t ht
    rcases List.mem_cons.1 ht with rfl | ht
    · simp [taskOf, List.find?]
    · have hna : ¬ a.t_id = t.t_id := by
        intro he
        rw [List.map_cons, List.nodup_cons] at h
        exact h.1 (he ▸ List.mem_map_of_mem (fun t => t.t_id) ht)
      have h2 : (rest.map (fun t => t.t_id)).Nodup := by
        rw [List.map_cons, List.nodup_cons] at h
        exact h.2
      simpa [taskOf, List.find?, hna] using ih h2 ht

theorem idKeyLt_trans {ts : List OTask} {u v w : Nat}
    (h1 : idKeyLt ts u v) (h2 : idKeyLt ts v w) : idKeyLt ts u w := by
  rcases h1 with ⟨a, b, ha, hb, hab⟩
  rcases h2 with ⟨b', c, hb', hc, hbc⟩
  rw [hb] at hb'
  cases hb'
  exact ⟨a, c, ha, hc, keyLt_trans hab hbc⟩

theorem idKeyLt_irrefl {ts : List OTask} {u : Nat} : ¬ idKeyLt ts u u := by
  rintro ⟨a, b, ha, hb, hab⟩
  rw [ha] at hb
  cases hb
  exact keyLt_irrefl a hab

/-- Under unique ids, every dependency-append event strictly increases the
`(deadline, priority, id)` key from source to target. -/
theorem events_key {ts : List OTask}
    (hids : (ts.map (fun t => t.t_id)).Nodup) {k d : Nat}
    (hp : (k, d) ∈ events ts) : idKeyLt ts d k := by
  rcases events_struct hp with ⟨a, b, ha, hb, hpe, hord⟩
  have hda : a.t_id = d := by simpa using congrArg Prod.snd hpe.symm
  have hkb : b.t_id = k := by simpa using congrArg Prod.fst hpe.symm
  have hta : taskOf ts d = some a := hda ▸ taskOf_eq_of_nodup hids ha
  have htb : taskOf ts k = some b := hkb ▸ taskOf_eq_of_nodup hids hb
  refine ⟨a, b, hta, htb, ?_⟩
  rcases hord with hlt | ⟨hdl, hsub⟩
  · exact Or.inl hlt
  · refine Or.inr ⟨hdl, ?_⟩
    have hsorted := sorted_sortG (getGroup (groupByDeadline ts) a.t_deadline)
    have hle : lexLe a b := by
      have := hsorted.sublist hsub
      simp [List.sorted_cons] at this
      exact this
    have hgn : ((getGroup (groupByDeadline ts) a.t_deadline).map
        (fun t => t.t_id)).Nodup := by
      rw [getGroup_groupByDeadline]
      exact ((List.filter_sublist ts).map (fun t => t.t_id)).nodup hids
    have hidsne : a.t_id ≠ b.t_id := by
      have hsn := sortG_ids_nodup hgn
      have := (hsub.map (fun t => t.t_id)).nodup hsn
      simp [List.nodup_cons] at this
      exact this
    revert hle hidsne
    unfold lexLe priLt
    omega

/-- Converse: two tasks with the same deadline in strict `(priority, id)`
order always generate the corresponding same-day append event. -/
theorem events_of_same_group {ts : List OTask} {t u : OTask}
    (ht : t ∈ ts) (hu : u ∈ ts) (hdl : t.t_deadline = u.t_deadline)
    (hpl : priLt t u) : (u.t_id, t.t_id) ∈ events ts := by
  have htg : t ∈ getGroup (groupByDeadline ts) t.t_deadline :=
    mem_getGroup.2 ⟨ht, rfl⟩
  have hug : u ∈ getGroup (groupByDeadline ts) t.t_deadline :=
    mem_getGroup.2 ⟨hu, hdl.symm⟩
  have hsub := pair_sublist_of_sorted _ (sorted_sortG _) t u
    (mem_sortG.2 htg) (mem_sortG.2 hug) hpl
  exact sameDayEv_subset_eventsLoop
    (mem_sortedKeys.2 (mem_keysOf_groupByDeadline.2 ⟨t, ht, rfl⟩))
    (mem_sameDayEv.2 ⟨t, u, hsub, rfl⟩)

/-! ## Lemmas: graph construction -/

theorem adjOf_addNodeG (g : Graph) (n u : Nat) :
    adjOf (addNodeG g n) u = adjOf g u := by
  unfold addNodeG adjOf; split <;> rfl

theorem mem_nodes_addNodeG {g : Graph} {n m : Nat} :
    m ∈ (addNodeG g n).nodes ↔ m ∈ g.nodes ∨ m = n := by
  by_cases h : n ∈ g.nodes
  · simp only [addNodeG, if_pos h]
    exact ⟨Or.inl, fun h' => h'.elim id (fun he => he ▸ h)⟩
  · simp [addNodeG, if_neg h]

theorem nodes_nodup_addNodeG {g : Graph} (h : g.nodes.Nodup) (n : Nat) :
    (addNodeG g n).nodes.Nodup := by
  by_cases hn : n ∈ g.nodes
  · simpa [addNodeG, if_pos hn] using h
  · simp only [addNodeG, if_neg hn]
    rw [List.nodup_append]
    exact ⟨h, by simp, by
      intro x hx hx2
      simp only [List.mem_singleton] at hx2
      exact hn (hx2 ▸ hx)⟩

theorem lookup_adjInsert :
    ∀ (m : List (Nat × List Nat)) (u v u' : Nat),
      ((List.find? (fun e => e.1 = u') (adjInsert m u v)).map
          (fun e => e.2)).getD [] =
        (if u = u' then
          (if v ∈ ((List.find? (fun e => e.1 = u') m).map
              (fun e => e.2)).getD []
           then ((List.find? (fun e => e.1 = u') m).map (fun e => e.2)).getD []
           else ((List.find? (fun e => e.1 = u') m).map
              (fun e => e.2)).getD [] ++ [v])
         else ((List.find? (fun e => e.1 = u') m).map (fun e => e.2)).getD []) := by
  intro m
  induction m with
  | nil =>
    intro u v u'
    by_cases h : u = u' <;> simp [adjInsert, List.find?, h]
  | cons e rest ih =>
    intro u v u'
    by_cases he : e.1 = u
    · by_cases hu : u = u'
      · subst hu
        by_cases hv : v ∈ e.2 <;>
          simp [adjInsert, List.find?, he, hv]
      · have he' : ¬ e.1 = u' := by omega
        by_cases hv : v ∈ e.2 <;>
          simp [adjInsert, List.find?, he, he', hu, hv]
    · by_cases he' : e.1 = u'
      · have hu : ¬ u = u' := by omega
        have hu2 : ¬ u' = u := by omega
        simp [adjInsert, List.find?, he, he', hu, hu2]
      · simpa [adjInsert, List.find?, he, he'] using ih u v u'

theorem adjOf_addEdgeG (g : Graph) (u v u' : Nat) :
    adjOf (addEdgeG g u v) u' =
      (if u = u' then
        (if v ∈ adjOf g u' then adjOf g u' else adjOf g u' ++ [v])
       else adjOf g u') := by
  have := lookup_adjInsert g.adj u v u'
  unfold addEdgeG adjOf
  exact this

theorem mem_adjOf_addEdgeG {g : Graph} {u v u' v' : Nat} :
    v' ∈ adjOf (addEdgeG g u v) u' ↔
      v' ∈ adjOf g u' ∨ (u' = u ∧ v' = v) := by
  rw [adjOf_addEdgeG]
  by_cases hu : u = u'
  · subst hu
    by_cases hv : v ∈ adjOf g u
    · rw [if_pos rfl, if_pos hv]
      constructor
      · exact Or.inl
      · rintro (h | ⟨-, h⟩)
        · exact h
        · exact h ▸ hv
    · rw [if_pos rfl, if_neg hv]
      rw [List.mem_append, List.mem_singleton]
      constructor
      · rintro (h | h)
        · exact Or.inl h
        · exact Or.inr ⟨rfl, h⟩
      · rintro (h | ⟨-, h⟩)
        · exact Or.inl h
        · exact Or.inr h
  · have h2 : ¬ u' = u := fun h => hu h.symm
    rw [if_neg hu]
    constructor
    · exact Or.inl
    · rintro (h | ⟨h, -⟩)
      · exact h
      · exact absurd h h2

theorem mem_nodes_addEdgeG {g : Graph} {u v m : Nat} :
    m ∈ (addEdgeG g u v).nodes ↔ m ∈ g.nodes ∨ m = u ∨ m = v := by
  show m ∈ (addNodeG (addNodeG g u) v).nodes ↔ _
  rw [mem_nodes_addNodeG, mem_nodes_addNodeG]
  tauto

theorem nodes_nodup_addEdgeG {g : Graph} (h : g.nodes.Nodup) (u v : Nat) :
    (addEdgeG g u v).nodes.Nodup :=
  nodes_nodup_addNodeG (nodes_nodup_addNodeG h u) v

theorem adj_nodup_addEdgeG {g : Graph} (h : ∀ w, (adjOf g w).Nodup)
    (u v : Nat) : ∀ w, (adjOf (addEdgeG g u v) w).Nodup := by
  intro w
  rw [adjOf_addEdgeG]
  by_cases hu : u = w
  · subst hu
    rw [if_pos rfl]
    by_cases hv : v ∈ adjOf g u
    · rw [if_pos hv]; exact h u
    · rw [if_neg hv]
      rw [List.nodup_append]
      exact ⟨h u, by simp, by
        intro x hx hx2
        simp only [List.mem_singleton] at hx2
        exact hv (hx2 ▸ hx)⟩
  · rw [if_neg hu]; exact h w

theorem edge_depsFold :
    ∀ (ds : List Nat) (g : Graph) (w u v' : Nat),
      v' ∈ adjOf (ds.foldl (fun g2 d => addEdgeG g2 d w) g) u ↔
        v' ∈ adjOf g u ∨ (v' = w ∧ u ∈ ds) := by
  intro ds
  induction ds with
  | nil => intro g w u v'; simp
  | cons d rest ih =>
    intro g w u v'
    rw [List.foldl_cons, ih, mem_adjOf_addEdgeG]
    simp only [List.mem_cons]
    tauto

theorem nodes_depsFold :
    ∀ (ds : List Nat) (g : Graph) (w : Nat), w ∈ g.nodes →
      ∀ m, m ∈ (ds.foldl (fun g2 d => addEdgeG g2 d w) g).nodes ↔
        m ∈ g.nodes ∨ m ∈ ds := by
  intro ds
  induction ds with
  | nil => intro g w _ m; simp
  | cons d rest ih =>
    intro g w hw m
    rw [List.foldl_cons, ih _ _ (mem_nodes_addEdgeG.2 (Or.inl hw)),
      mem_nodes_addEdgeG]
    simp only [List.mem_cons]
    constructor
    · rintro ((h | h | h) | h)
      · exact Or.inl h
      · exact Or.inr (Or.inl h)
      · exact Or.inl (h ▸ hw)
      · exact Or.inr (Or.inr h)
    · rintro (h | h | h)
      · exact Or.inl (Or.inl h)
      · exact Or.inl (Or.inr (Or.inl h))
      · exact Or.inr h

theorem edge_buildStep {g : Graph} {t : OTask} {u v : Nat} :
    v ∈ adjOf (buildStep g t) u ↔
      v ∈ adjOf g u ∨ (v = t.t_id ∧ u ∈ t.t_dependencies) := by
  unfold buildStep
  rw [edge_depsFold, adjOf_addNodeG]

theorem nodes_buildStep {g : Graph} {t : OTask} {m : Nat} :
    m ∈ (buildStep g t).nodes ↔
      m ∈ g.nodes ∨ m = t.t_id ∨ m ∈ t.t_dependencies := by
  unfold buildStep
  rw [nodes_depsFold _ _ _ (mem_nodes_addNodeG.2 (Or.inr rfl)),
    mem_nodes_addNodeG]
  tauto

theorem edge_buildFold :
    ∀ (ts : List OTask) (g : Graph) (u v : Nat),
      v ∈ adjOf (ts.foldl buildStep g) u ↔
        v ∈ adjOf g u ∨ ∃ t ∈ ts, t.t_id = v ∧ u ∈ t.t_dependencies := by
  intro ts
  induction ts with
  | nil => intro g u v; simp
  | cons t rest ih =>
    intro g u v
    rw [List.foldl_cons, ih, edge_buildStep]
    simp only [List.mem_cons]
    constructor
    · rintro ((h | ⟨h1, h2⟩) | ⟨t', ht', h1, h2⟩)
      · exact Or.inl h
      · exact Or.inr ⟨t, Or.inl rfl, h1.symm, h2⟩
      · exact Or.inr ⟨t', Or.inr ht', h1, h2⟩
    · rintro (h | ⟨t', ht' | ht', h1, h2⟩)
      · exact Or.inl (Or.inl h)
      · exact Or.inl (Or.inr ⟨ht' ▸ h1.symm, ht' ▸ h2⟩)
      · exact Or.inr ⟨t', ht', h1, h2⟩

theorem nodes_buildFold :
    ∀ (ts : List OTask) (g : Graph) (m : Nat),
      m ∈ (ts.foldl buildStep g).nodes ↔
        m ∈ g.nodes ∨ ∃ t ∈ ts, (t.t_id = m ∨ m ∈ t.t_dependencies) := by
  intro ts
  induction ts with
  | nil => intro g m; simp
  | cons t rest ih =>
    intro g m
    rw [List.foldl_cons, ih, nodes_buildStep]
    simp only [List.mem_cons]
    constructor
    · rintro ((h | h | h) | ⟨t', ht', h⟩)
      · exact Or.inl h
      · exact Or.inr ⟨t, Or.inl rfl, Or.inl h.symm⟩
      · exact Or.inr ⟨t, Or.inl rfl, Or.inr h⟩
      · exact Or.inr ⟨t', Or.inr ht', h⟩
    · rintro (h | ⟨t', ht' | ht', h⟩)
      · exact Or.inl (Or.inl h)
      · subst ht'
        rcases h with h | h
        · exact Or.inl (Or.inr (Or.inl h.symm))
        · exact Or.inl (Or.inr (Or.inr h))
      · exact Or.inr ⟨t', ht', h⟩

theorem edge_buildGraph {ts : List OTask} {u v : Nat} :
    EdgeRel (buildGraph ts) u v ↔
      ∃ t ∈ ts, t.t_id = v ∧ u ∈ t.t_dependencies := by
  unfold EdgeRel buildGraph
  rw [edge_buildFold]
  simp [adjOf]

theorem mem_nodes_buildGraph {ts : List OTask} {m : Nat} :
    m ∈ (buildGraph ts).nodes ↔
      ∃ t ∈ ts, (t.t_id = m ∨ m ∈ t.t_dependencies) := by
  unfold buildGraph
  rw [nodes_buildFold]
  simp

theorem depsFold_nodup :
    ∀ (ds : List Nat) (g : Graph) (w : Nat), g.nodes.Nodup →
      (∀ x, (adjOf g x).Nodup) →
      (ds.foldl (fun g2 d => addEdgeG g2 d w) g).nodes.Nodup ∧
        ∀ x, (adjOf (ds.foldl (fun g2 d => addEdgeG g2 d w) g) x).Nodup := by
  intro ds
  induction ds with
  | nil => intro g w hn ha; exact ⟨hn, ha⟩
  | cons d rest ih =>
    intro g w hn ha
    rw [List.foldl_cons]
    exact ih _ _ (nodes_nodup_addEdgeG hn d w) (adj_nodup_addEdgeG ha d w)

theorem buildFold_nodup :
    ∀ (ts : List OTask) (g : Graph), g.nodes.Nodup →
      (∀ x, (adjOf g x).Nodup) →
      (ts.foldl buildStep g).nodes.Nodup ∧
        ∀ x, (adjOf (ts.foldl buildStep g) x).Nodup := by
  intro ts
  induction ts with
  | nil => intro g hn ha; exact ⟨hn, ha⟩
  | cons t rest ih =>
    intro g hn ha
    rw [List.foldl_cons]
    have hstep := depsFold_nodup t.t_dependencies (addNodeG g t.t_id) t.t_id
      (nodes_nodup_addNodeG hn t.t_id)
      (by intro x; rw [adjOf_addNodeG]; exact ha x)
    exact ih _ hstep.1 hstep.2

theorem buildGraph_nodes_nodup (ts : List OTask) :
    (buildGraph ts).nodes.Nodup :=
  (buildFold_nodup ts (Graph.mk [] []) (by simp) (by intro x; simp [adjOf])).1

theorem buildGraph_adj_nodup (ts : List OTask) (x : Nat) :
    (adjOf (buildGraph ts) x).Nodup :=
  (buildFold_nodup ts (Graph.mk [] []) (by simp) (by intro x; simp [adjOf])).2 x

/-! ## Lemmas: Kahn's algorithm -/

theorem listBefore_append {u v : Nat} {l : List Nat} (n : Nat)
    (h : listBefore u v l) : listBefore u v (l ++ [n]) := by
  rcases h with ⟨l1, l2, rfl, hv⟩
  exact ⟨l1, l2 ++ [n], by simp, by simp [hv]⟩

theorem listBefore_new {u n : Nat} {l : List Nat} (h : u ∈ l) :
    listBefore u n (l ++ [n]) := by
  rcases List.append_of_mem h with ⟨s, t, rfl⟩
  exact ⟨s, t ++ [n], by simp, by simp⟩

theorem builderGraph_wf (ts : List OTask) : GraphWF (builderGraph ts) := by
  refine ⟨buildGraph_nodes_nodup _, buildGraph_adj_nodup _, ?_⟩
  intro u v hv
  have he : EdgeRel (buildGraph (writeDeps ts)) u v := hv
  rcases edge_buildGraph.1 he with ⟨t, ht, h1, h2⟩
  constructor
  · exact mem_nodes_buildGraph.2 ⟨t, ht, Or.inr h2⟩
  · exact mem_nodes_buildGraph.2 ⟨t, ht, Or.inl h1⟩

theorem mem_predsOf {g : Graph} {u k : Nat} :
    u ∈ predsOf g k ↔ u ∈ g.nodes ∧ k ∈ adjOf g u := by
  simp [predsOf, List.mem_filter]

theorem predsOf_nodup (g : Graph) (hwf : GraphWF g) (k : Nat) :
    (predsOf g k).Nodup := hwf.1.filter _

theorem cntOut_zero_iff {g : Graph} {out : List Nat} {k : Nat} :
    cntOut g out k = 0 ↔ ∀ u ∈ predsOf g k, u ∈ out := by
  unfold cntOut
  rw [List.length_eq_zero, List.filter_eq_nil_iff]
  constructor
  · intro h u hu
    by_contra hc
    simpa [hc] using h u hu
  · intro h u hu
    simp [h u hu]

/-- Removing the length-1 contribution of a fresh element `n` of `l` from
the not-in-`out` filter. -/
theorem filter_length_extend :
    ∀ (l : List Nat), l.Nodup → ∀ (out : List Nat) (n : Nat),
      n ∈ l → n ∉ out →
      (l.filter (fun u => !decide (u ∈ out))).length =
        (l.filter (fun u => !decide (u ∈ out ++ [n]))).length + 1 := by
  intro l
  induction l with
  | nil => intro _ out n h; simp at h
  | cons a rest ih =>
    intro hnd out n hn hno
    have hnd2 := (List.nodup_cons.1 hnd).2
    have hna := (List.nodup_cons.1 hnd).1
    rcases List.mem_cons.1 hn with rfl | hn
    · have hfil : rest.filter (fun u => !decide (u ∈ out ++ [n])) =
          rest.filter (fun u => !decide (u ∈ out)) := by
        apply List.filter_congr
        intro u hu
        have : u ≠ n := fun he => hna (he ▸ hu)
        simp [List.mem_append, this]
      rw [List.filter_cons_of_pos (by simp [hno]),
        List.filter_cons_of_neg (by simp), hfil]
      simp
    · have hne : a ≠ n := fun he => hna (he ▸ hn)
      by_cases ha : a ∈ out
      · rw [List.filter_cons_of_neg (by simp [ha]),
          List.filter_cons_of_neg (by simp [List.mem_append, ha])]
        exact ih hnd2 out n hn hno
      · rw [List.filter_cons_of_pos (by simp [ha]),
          List.filter_cons_of_pos (by simp [List.mem_append, ha, hne])]
        simp only [List.length_cons]
        rw [ih hnd2 out n hn hno]

theorem cntOut_extend_mem {g : Graph} {out : List Nat} {k n : Nat}
    (hwf : GraphWF g) (hn : n ∈ predsOf g k) (hno : n ∉ out) :
    cntOut g out k = cntOut g (out ++ [n]) k + 1 :=
  filter_length_extend _ (predsOf_nodup g hwf k) out n hn hno

theorem cntOut_extend_not_mem {g : Graph} {out : List Nat} {k n : Nat}
    (hn : n ∉ predsOf g k) :
    cntOut g (out ++ [n]) k = cntOut g out k := by
  unfold cntOut
  congr 1
  apply List.filter_congr
  intro u hu
  have : u ≠ n := fun he => hn (he ▸ hu)
  simp [List.mem_append, this]

theorem cntOut_pos_exists {g : Graph} {out : List Nat} {k : Nat}
    (h : 1 ≤ cntOut g out k) :
    ∃ u, u ∈ predsOf g k ∧ u ∉ out := by
  have hpos : 0 <
      ((predsOf g k).filter (fun u => !decide (u ∈ out))).length := by
    unfold cntOut at h
    omega
  rcases List.exists_mem_of_length_pos hpos with ⟨u, hu⟩
  have hm := List.mem_filter.1 hu
  refine ⟨u, hm.1, ?_⟩
  have h2 := hm.2
  simpa using h2

/-! ### The in-degree map operations -/

theorem lookupKey_some_mem {m : List (Nat × Nat)} {k c : Nat}
    (h : lookupKey m k = some c) : (k, c) ∈ m := by
  unfold lookupKey at h
  rcases Option.map_eq_some'.1 h with ⟨e, he, hc⟩
  have h1 := List.find?_some he
  have h2 := List.mem_of_find?_eq_some he
  rcases e with ⟨k', c'⟩
  simp at h1 hc
  subst h1
  subst hc
  exact h2

theorem lookupKey_isSome {m : List (Nat × Nat)} {k : Nat}
    (h : k ∈ m.map (fun e => e.1)) : ∃ c, lookupKey m k = some c := by
  rcases List.mem_map.1 h with ⟨e, he, hk⟩
  have : (List.find? (fun e => e.1 = k) m).isSome :=
    List.find?_isSome.2 ⟨e, he, by simp [hk]⟩
  rcases Option.isSome_iff_exists.1 this with ⟨e', he'⟩
  exact ⟨e'.2, by simp [lookupKey, he']⟩

theorem delKey_sublist : ∀ (m : List (Nat × Nat)) (k : Nat),
    (delKey m k).Sublist m := by
  intro m k
  induction m with
  | nil => simp [delKey]
  | cons e rest ih =>
    by_cases he : e.1 = k
    · simp only [delKey, if_pos he]
      exact (List.sublist_cons_self e rest)
    · simp only [delKey, if_neg he]
      exact ih.cons₂ e

theorem mem_delKey :
    ∀ {m : List (Nat × Nat)}, (m.map (fun e => e.1)).Nodup →
      ∀ {k : Nat} {e : Nat × Nat},
        (e ∈ delKey m k ↔ e ∈ m ∧ e.1 ≠ k) := by
  intro m
  induction m with
  | nil => intro _ k e; simp [delKey]
  | cons a rest ih =>
    intro hnd k e
    have hnd' : (a.1 :: rest.map (fun e => e.1)).Nodup := by
      simpa using hnd
    have hnd2 := (List.nodup_cons.1 hnd').2
    have hna : a.1 ∉ rest.map (fun e => e.1) := (List.nodup_cons.1 hnd').1
    by_cases ha : a.1 = k
    · simp only [delKey, if_pos ha]
      constructor
      · intro he
        refine ⟨List.mem_cons_of_mem a he, ?_⟩
        intro hek
        exact hna (by
          rw [ha, ← hek]
          exact List.mem_map_of_mem (fun e => e.1) he)
      · rintro ⟨he, hek⟩
        rcases List.mem_cons.1 he with rfl | he
        · exact absurd ha hek
        · exact he
    · simp only [delKey, if_neg ha]
      rw [List.mem_cons, ih hnd2, List.mem_cons]
      constructor
      · rintro (rfl | ⟨he, hek⟩)
        · exact ⟨Or.inl rfl, ha⟩
        · exact ⟨Or.inr he, hek⟩
      · rintro ⟨rfl | he, hek⟩
        · exact Or.inl rfl
        · exact Or.inr ⟨he, hek⟩

theorem keys_decKey : ∀ (m : List (Nat × Nat)) (k : Nat),
    (decKey m k).map (fun e => e.1) = m.map (fun e => e.1) := by
  intro m k
  induction m with
  | nil => simp [decKey]
  | cons e rest ih =>
    by_cases he : e.1 = k
    · simp [decKey, if_pos he]
    · simp [decKey, if_neg he, ih]

theorem mem_decKey :
    ∀ {m : List (Nat × Nat)}, (m.map (fun e => e.1)).Nodup →
      ∀ {k cnt : Nat}, lookupKey m k = some cnt →
      ∀ {e : Nat × Nat},
        (e ∈ decKey m k ↔ (e ∈ m ∧ e.1 ≠ k) ∨ e = (k, cnt - 1)) := by
  intro m
  induction m with
  | nil => intro _ k cnt h; simp [lookupKey] at h
  | cons a rest ih =>
    intro hnd k cnt hl e
    have hnd' : (a.1 :: rest.map (fun e => e.1)).Nodup := by
      simpa using hnd
    have hnd2 := (List.nodup_cons.1 hnd').2
    have hna : a.1 ∉ rest.map (fun e => e.1) := (List.nodup_cons.1 hnd').1
    by_cases ha : a.1 = k
    · have hcnt : cnt = a.2 := by
        simp [lookupKey, List.find?, ha] at hl
        omega
      subst hcnt
      have hd : decKey (a :: rest) k = (a.1, a.2 - 1) :: rest := by
        simp [decKey, if_pos ha]
      rw [hd]
      constructor
      · intro he
        rcases List.mem_cons.1 he with rfl | he
        · exact Or.inr (by rw [ha])
        · refine Or.inl ⟨List.mem_cons_of_mem a he, ?_⟩
          intro hek
          exact hna (by
            rw [ha, ← hek]
            exact List.mem_map_of_mem (fun e => e.1) he)
      · intro he
        rcases he with ⟨he, hek⟩ | rfl
        · rcases List.mem_cons.1 he with rfl | he
          · exact absurd ha hek
          · exact List.mem_cons_of_mem _ he
        · rw [ha]
          exact List.mem_cons_self _ _
    · have hl2 : lookupKey rest k = some cnt := by
        simpa [lookupKey, List.find?, ha] using hl
      have hd : decKey (a :: rest) k = a :: decKey rest k := by
        simp [decKey, if_neg ha]
      rw [hd]
      constructor
      · intro he
        rcases List.mem_cons.1 he with rfl | he
        · exact Or.inl ⟨List.mem_cons_self _ _, ha⟩
        · rcases (ih hnd2 hl2).1 he with ⟨he2, hek⟩ | rfl
          · exact Or.inl ⟨List.mem_cons_of_mem _ he2, hek⟩
          · exact Or.inr rfl
      · intro he
        rcases he with ⟨he, hek⟩ | rfl
        · rcases List.mem_cons.1 he with rfl | he
          · exact List.mem_cons_self _ _
          · exact List.mem_cons_of_mem _ ((ih hnd2 hl2).2 (Or.inl ⟨he, hek⟩))
        · exact List.mem_cons_of_mem _ ((ih hnd2 hl2).2 (Or.inr rfl))

theorem idegSum_delKey : ∀ {m : List (Nat × Nat)} {k cnt : Nat},
    lookupKey m k = some cnt → idegSum (delKey m k) + cnt = idegSum m := by
  intro m
  induction m with
  | nil => intro k cnt h; simp [lookupKey] at h
  | cons a rest ih =>
    intro k cnt hl
    by_cases ha : a.1 = k
    · have hcnt : cnt = a.2 := by
        simp [lookupKey, List.find?, ha] at hl
        omega
      subst hcnt
      simp [delKey, if_pos ha, idegSum]
      omega
    · have hl2 : lookupKey rest k = some cnt := by
        simpa [lookupKey, List.find?, ha] using hl
      simp only [delKey, if_neg ha, idegSum, List.map_cons, List.sum_cons]
      have := ih hl2
      unfold idegSum at this
      omega

theorem idegSum_decKey : ∀ {m : List (Nat × Nat)} {k cnt : Nat},
    lookupKey m k = some cnt →
      idegSum (decKey m k) + cnt = idegSum m + (cnt - 1) := by
  intro m
  induction m with
  | nil => intro k cnt h; simp [lookupKey] at h
  | cons a rest ih =>
    intro k cnt hl
    by_cases ha : a.1 = k
    · have hcnt : cnt = a.2 := by
        simp [lookupKey, List.find?, ha] at hl
        omega
      subst hcnt
      simp [decKey, if_pos ha, idegSum]
      omega
    · have hl2 : lookupKey rest k = some cnt := by
        simpa [lookupKey, List.find?, ha] using hl
      simp only [decKey, if_neg ha, idegSum, List.map_cons, List.sum_cons]
      have := ih hl2
      unfold idegSum at this
      omega

theorem procChildren_measure :
    ∀ (cs : List Nat) (ideg : List (Nat × Nat)) (zero : List Nat),
      (procChildren ideg zero cs).2.length +
          idegSum (procChildren ideg zero cs).1 ≤
        zero.length + idegSum ideg := by
  intro cs
  induction cs with
  | nil => intro ideg zero; simp [procChildren]
  | cons c cs ih =>
    intro ideg zero
    rcases hl : lookupKey ideg c with _ | cnt
    · simp only [procChildren, hl]
      exact ih ideg zero
    · by_cases h1 : cnt = 1
      · simp only [procChildren, hl, if_pos h1]
        have h2 := ih (delKey ideg c) (zero ++ [c])
        have h3 := idegSum_delKey hl
        simp only [List.length_append, List.length_singleton] at h2
        omega
      · simp only [procChildren, hl, if_neg h1]
        have h2 := ih (decKey ideg c) zero
        have h3 := idegSum_decKey hl
        omega

theorem procChildren_spec (g : Graph) :
    ∀ (cs : List Nat) (ideg : List (Nat × Nat)) (zero outP : List Nat),
      cs.Nodup →
      (∀ k ∈ cs, k ∈ ideg.map (fun e => e.1)) →
      (ideg.map (fun e => e.1)).Nodup →
      (∀ e ∈ ideg, e.1 ∈ g.nodes ∧ e.1 ∉ zero ∧ e.1 ∉ outP ∧ 1 ≤ e.2 ∧
        (e.1 ∈ cs → e.2 = cntOut g outP e.1 + 1) ∧
        (e.1 ∉ cs → e.2 = cntOut g outP e.1)) →
      zero.Nodup →
      (∀ k ∈ zero, k ∈ g.nodes ∧ k ∉ outP ∧ ∀ u ∈ predsOf g k, u ∈ outP) →
      (∀ n ∈ g.nodes, n ∈ outP ∨ n ∈ zero ∨ n ∈ ideg.map (fun e => e.1)) →
      ((procChildren ideg zero cs).1.map (fun e => e.1)).Nodup ∧
      (∀ e ∈ (procChildren ideg zero cs).1, e.1 ∈ g.nodes ∧
        e.1 ∉ (procChildren ideg zero cs).2 ∧ e.1 ∉ outP ∧ 1 ≤ e.2 ∧
        e.2 = cntOut g outP e.1) ∧
      (procChildren ideg zero cs).2.Nodup ∧
      (∀ k ∈ (procChildren ideg zero cs).2, k ∈ g.nodes ∧ k ∉ outP ∧
        ∀ u ∈ predsOf g k, u ∈ outP) ∧
      (∀ n ∈ g.nodes, n ∈ outP ∨ n ∈ (procChildren ideg zero cs).2 ∨
        n ∈ (procChildren ideg zero cs).1.map (fun e => e.1)) := by
  intro cs
  induction cs with
  | nil =>
    intro ideg zero outP _ _ hkn hent hzn hzm hcov
    refine ⟨hkn, ?_, hzn, hzm, hcov⟩
    intro e he
    obtain ⟨h1, h2, h3, h4, _, h6⟩ := hent e he
    exact ⟨h1, h2, h3, h4, h6 (by simp)⟩
  | cons c cs ih =>
    intro ideg zero outP hcsn hcsk hkn hent hzn hzm hcov
    obtain ⟨cnt, hl⟩ := lookupKey_isSome (hcsk c (by simp))
    have hcmem : (c, cnt) ∈ ideg := lookupKey_some_mem hl
    obtain ⟨hcnode, hczero, hcout, hcpos, hcin, _⟩ := hent (c, cnt) hcmem
    have hcnt : cnt = cntOut g outP c + 1 := hcin (by simp)
    have hcsn2 : cs.Nodup := (List.nodup_cons.1 hcsn).2
    have hccs : c ∉ cs := (List.nodup_cons.1 hcsn).1
    by_cases h1 : cnt = 1
    · have hstep : procChildren ideg zero (c :: cs) =
          procChildren (delKey ideg c) (zero ++ [c]) cs := by
        simp only [procChildren, hl, if_pos h1]
      rw [hstep]
      have hc0 : cntOut g outP c = 0 := by omega
      have hcpred : ∀ u ∈ predsOf g c, u ∈ outP := cntOut_zero_iff.1 hc0
      apply ih (delKey ideg c) (zero ++ [c]) outP hcsn2
      · intro k hk
        obtain ⟨ck, hlk⟩ := lookupKey_isSome (hcsk k (by simp [hk]))
        have hkm : (k, ck) ∈ ideg := lookupKey_some_mem hlk
        have hkc : ¬ (k, ck).1 = c := by
          simp only []
          exact fun he => hccs (he ▸ hk)
        exact List.mem_map_of_mem _ ((mem_delKey hkn).2 ⟨hkm, hkc⟩)
      · exact ((delKey_sublist ideg c).map _).nodup hkn
      · intro e he
        obtain ⟨hem, hec⟩ := (mem_delKey hkn).1 he
        obtain ⟨g1, g2, g3, g4, g5, g6⟩ := hent e hem
        refine ⟨g1, ?_, g3, g4, ?_, ?_⟩
        · simp only [List.mem_append, List.mem_singleton]
          rintro (h | h)
          · exact g2 h
          · exact hec h
        · intro hecs
          exact g5 (by simp [hecs])
        · intro hecs
          exact g6 (by simp [hecs, hec])
      · rw [List.nodup_append]
        exact ⟨hzn, by simp, by
          intro x hx hx2
          simp only [List.mem_singleton] at hx2
          exact hczero (hx2 ▸ hx)⟩
      · intro k hk
        rcases List.mem_append.1 hk with hk | hk
        · exact hzm k hk
        · simp only [List.mem_singleton] at hk
          subst hk
          exact ⟨hcnode, hcout, hcpred⟩
      · intro n hn
        rcases hcov n hn with h | h | h
        · exact Or.inl h
        · exact Or.inr (Or.inl (by simp [h]))
        · rcases List.mem_map.1 h with ⟨e, he, hk⟩
          by_cases hec : e.1 = c
          · refine Or.inr (Or.inl ?_)
            simp [← hk, hec]
          · exact Or.inr (Or.inr
              (hk ▸ List.mem_map_of_mem _ ((mem_delKey hkn).2 ⟨he, hec⟩)))
    · have hstep : procChildren ideg zero (c :: cs) =
          procChildren (decKey ideg c) zero cs := by
        simp only [procChildren, hl, if_neg h1]
      rw [hstep]
      apply ih (decKey ideg c) zero outP hcsn2
      · intro k hk
        rw [keys_decKey]
        exact hcsk k (by simp [hk])
      · rw [keys_decKey]
        exact hkn
      · intro e he
        rcases (mem_decKey hkn hl).1 he with ⟨hem, hec⟩ | rfl
        · obtain ⟨g1, g2, g3, g4, g5, g6⟩ := hent e hem
          refine ⟨g1, g2, g3, g4, ?_, ?_⟩
          · intro hecs
            exact g5 (by simp [hecs])
          · intro hecs
            exact g6 (by simp [hecs, hec])
        · refine ⟨hcnode, hczero, hcout, by omega, ?_, ?_⟩
          · intro hccs2
            exact absurd hccs2 hccs
          · intro _
            simp only []
            omega
      · exact hzn
      · exact hzm
      · intro n hn
        rcases hcov n hn with h | h | h
        · exact Or.inl h
        · exact Or.inr (Or.inl h)
        · refine Or.inr (Or.inr ?_)
          rw [keys_decKey]
          exact h

theorem kahnLoop_spec (g : Graph) (hwf : GraphWF g) :
    ∀ (fuel : Nat) (ideg : List (Nat × Nat)) (zero out : List Nat),
      zero.length + idegSum ideg < fuel →
      (ideg.map (fun e => e.1)).Nodup →
      (∀ e ∈ ideg, e.1 ∈ g.nodes ∧ e.1 ∉ zero ∧ e.1 ∉ out ∧ 1 ≤ e.2 ∧
        e.2 = cntOut g out e.1) →
      zero.Nodup →
      (∀ k ∈ zero, k ∈ g.nodes ∧ k ∉ out ∧ ∀ u ∈ predsOf g k, u ∈ out) →
      out.Nodup →
      (∀ k ∈ out, k ∈ g.nodes) →
      (∀ n ∈ g.nodes, n ∈ out ∨ n ∈ zero ∨ n ∈ ideg.map (fun e => e.1)) →
      (∀ u v, EdgeRel g u v → v ∈ out → u ∈ out ∧ listBefore u v out) →
      ((∀ res, kahnLoop g fuel ideg zero out = some res →
        (∀ n ∈ g.nodes, n ∈ res) ∧ res.Nodup ∧ (∀ k ∈ res, k ∈ g.nodes) ∧
        (∀ u v, EdgeRel g u v → v ∈ res → u ∈ res ∧ listBefore u v res)) ∧
      (kahnLoop g fuel ideg zero out = none →
        ∃ S : List Nat, S ≠ [] ∧ (∀ k ∈ S, k ∈ g.nodes) ∧
          ∀ k ∈ S, ∃ u ∈ S, EdgeRel g u k)) := by
  intro fuel
  induction fuel with
  | zero =>
    intro ideg zero out hm
    exact absurd hm (by omega)
  | succ fuel ih =>
    intro ideg zero out hm hkn hent hzn hzm hon hos hcov horder
    cases zero with
    | nil =>
      by_cases hid : ideg = []
      · subst hid
        constructor
        · intro res hres
          have hres2 : out = res := by
            simpa [kahnLoop] using hres
          subst hres2
          refine ⟨?_, hon, hos, ?_⟩
          · intro n hn
            rcases hcov n hn with h | h | h
            · exact h
            · simp at h
            · simp at h
          · intro u v he hv
            exact horder u v he hv
        · intro hres
          simp [kahnLoop] at hres
      · constructor
        · intro res hres
          simp [kahnLoop, hid] at hres
        · intro _
          refine ⟨ideg.map (fun e => e.1), ?_, ?_, ?_⟩
          · simpa using hid
          · intro k hk
            rcases List.mem_map.1 hk with ⟨e, he, hk2⟩
            exact hk2 ▸ (hent e he).1
          · intro k hk
            rcases List.mem_map.1 hk with ⟨e, he, hk2⟩
            obtain ⟨_, _, _, hpos, hcnt⟩ := hent e he
            have hex : ∃ u, u ∈ predsOf g e.1 ∧ u ∉ out :=
              cntOut_pos_exists (by omega)
            rcases hex with ⟨u, hup, huo⟩
            have humem := mem_predsOf.1 hup
            have huk : u ∈ ideg.map (fun e => e.1) := by
              rcases hcov u humem.1 with h | h | h
              · exact absurd h huo
              · simp at h
              · exact h
            refine ⟨u, huk, ?_⟩
            show k ∈ adjOf g u
            rw [← hk2]
            exact humem.2
    | cons z zs =>
      have hlz : (z :: zs) ≠ [] := List.cons_ne_nil z zs
      have hnz : (z :: zs).getLast hlz ∈ (z :: zs) := List.getLast_mem hlz
      obtain ⟨hnn, hnout, hnpred⟩ := hzm _ hnz
      have hdz : (z :: zs).dropLast ++ [(z :: zs).getLast hlz] = z :: zs :=
        List.dropLast_append_getLast hlz
      have hzn2 : ((z :: zs).dropLast ++ [(z :: zs).getLast hlz]).Nodup := by
        rw [hdz]; exact hzn
      have hdn : (z :: zs).dropLast.Nodup := (List.nodup_append.1 hzn2).1
      have hnd : (z :: zs).getLast hlz ∉ (z :: zs).dropLast := by
        intro hmem
        have hdisj := (List.nodup_append.1 hzn2).2.2
        exact hdisj hmem (by simp)
      have hdsub : ∀ k ∈ (z :: zs).dropLast, k ∈ (z :: zs) := by
        intro k hk
        rw [← hdz]
        exact List.mem_append_left _ hk
      -- preconditions of the child-processing spec
      have hcsk : ∀ k ∈ adjOf g ((z :: zs).getLast hlz),
          k ∈ ideg.map (fun e => e.1) := by
        intro k hk
        have hkn2 : k ∈ g.nodes := (hwf.2.2 _ k hk).2
        rcases hcov k hkn2 with h | h | h
        · have := (horder _ k hk h).1
          exact absurd this hnout
        · obtain ⟨_, _, hpk⟩ := hzm k h
          have : (z :: zs).getLast hlz ∈ predsOf g k :=
            mem_predsOf.2 ⟨hnn, hk⟩
          exact absurd (hpk _ this) hnout
        · exact h
      have hspec := procChildren_spec g (adjOf g ((z :: zs).getLast hlz))
        ideg ((z :: zs).dropLast)
        (out ++ [(z :: zs).getLast hlz])
        (hwf.2.1 _) hcsk hkn
        (by
          intro e he
          obtain ⟨g1, g2, g3, g4, g5⟩ := hent e he
          refine ⟨g1, fun hmem => g2 (hdsub _ hmem), ?_, g4, ?_, ?_⟩
          · simp only [List.mem_append, List.mem_singleton]
            rintro (h | h)
            · exact g3 h
            · exact g2 (h ▸ hnz)
          · intro hecs
            rw [g5]
            exact cntOut_extend_mem hwf (mem_predsOf.2 ⟨hnn, hecs⟩) hnout
          · intro hecs
            rw [cntOut_extend_not_mem, g5]
            intro hp
            exact hecs (mem_predsOf.1 hp).2)
        hdn
        (by
          intro k hk
          obtain ⟨g1, g2, g3⟩ := hzm k (hdsub _ hk)
          refine ⟨g1, ?_, ?_⟩
          · simp only [List.mem_append, List.mem_singleton]
            rintro (h | h)
            · exact g2 h
            · exact hnd (h ▸ hk)
          · intro u hu
            exact List.mem_append_left _ (g3 u hu))
        (by
          intro n hn
          rcases hcov n hn with h | h | h
          · exact Or.inl (List.mem_append_left _ h)
          · rw [← hdz] at h
            rcases List.mem_append.1 h with h | h
            · exact Or.inr (Or.inl h)
            · simp only [List.mem_singleton] at h
              exact Or.inl (List.mem_append_right _ (by simp [h]))
          · exact Or.inr (Or.inr h))
      obtain ⟨s1, s2, s3, s4, s5⟩ := hspec
      have hmeas := procChildren_measure (adjOf g ((z :: zs).getLast hlz))
        ideg ((z :: zs).dropLast)
      have hstep : kahnLoop g (fuel + 1) ideg (z :: zs) out =
          kahnLoop g fuel
            (procChildren ideg ((z :: zs).dropLast)
              (adjOf g ((z :: zs).getLast hlz))).1
            (procChildren ideg ((z :: zs).dropLast)
              (adjOf g ((z :: zs).getLast hlz))).2
            (out ++ [(z :: zs).getLast hlz]) := rfl
      rw [hstep]
      apply ih
      · have hlen : (z :: zs).dropLast.length + 1 = (z :: zs).length := by
          rw [← hdz]
          simp
        omega
      · exact s1
      · exact s2
      · exact s3
      · exact s4
      · rw [List.nodup_append]
        exact ⟨hon, by simp, by
          intro x hx hx2
          simp only [List.mem_singleton] at hx2
          exact hnout (hx2 ▸ hx)⟩
      · intro k hk
        rcases List.mem_append.1 hk with h | h
        · exact hos k h
        · simp only [List.mem_singleton] at h
          exact h ▸ hnn
      · exact s5
      · intro u v he hv
        rcases List.mem_append.1 hv with h | h
        · obtain ⟨h1, h2⟩ := horder u v he h
          exact ⟨List.mem_append_left _ h1, listBefore_append _ h2⟩
        · simp only [List.mem_singleton] at h
          have hu : u ∈ out := hnpred u
            (mem_predsOf.2 ⟨(hwf.2.2 u v he).1, h ▸ he⟩)
          refine ⟨List.mem_append_left _ hu, ?_⟩
          rw [h]
          exact listBefore_new hu

/-! ## Lemmas: the initial Kahn state and the full topological sort -/

theorem keys_filterMap_cnt (g : Graph) :
    ∀ l : List Nat,
      ((l.filterMap (fun n =>
        if cntOut g [] n = 0 then none else some (n, cntOut g [] n))).map
          (fun e => e.1)) =
        l.filter (fun n => !decide (cntOut g [] n = 0)) := by
  intro l
  induction l with
  | nil => simp
  | cons a rest ih =>
    by_cases h : cntOut g [] a = 0 <;>
      simp [List.filterMap_cons, h, ih]

theorem keys_initIdeg (g : Graph) :
    (initIdeg g).map (fun e => e.1) =
      g.nodes.filter (fun n => !decide (cntOut g [] n = 0)) :=
  keys_filterMap_cnt g g.nodes

theorem mem_initIdeg {g : Graph} {e : Nat × Nat} :
    e ∈ initIdeg g ↔
      e.1 ∈ g.nodes ∧ cntOut g [] e.1 ≠ 0 ∧ e.2 = cntOut g [] e.1 := by
  unfold initIdeg
  rw [List.mem_filterMap]
  constructor
  · rintro ⟨a, ha, hfa⟩
    by_cases h : cntOut g [] a = 0
    · simp [h] at hfa
    · rw [if_neg h] at hfa
      have he : e = (a, cntOut g [] a) := by
        cases hfa
        rfl
      subst he
      exact ⟨ha, h, rfl⟩
  · rintro ⟨h1, h2, h3⟩
    refine ⟨e.1, h1, ?_⟩
    rw [if_neg h2]
    rcases e with ⟨e1, e2⟩
    simp only [] at h3 ⊢
    rw [h3]

theorem mem_initZero {g : Graph} {n : Nat} :
    n ∈ initZero g ↔ n ∈ g.nodes ∧ cntOut g [] n = 0 := by
  simp [initZero, List.mem_filter]

theorem kahn_spec (g : Graph) (hwf : GraphWF g) :
    (∀ res, kahn g = some res →
      (∀ n ∈ g.nodes, n ∈ res) ∧ res.Nodup ∧ (∀ k ∈ res, k ∈ g.nodes) ∧
      (∀ u v, EdgeRel g u v → v ∈ res → u ∈ res ∧ listBefore u v res)) ∧
    (kahn g = none →
      ∃ S : List Nat, S ≠ [] ∧ (∀ k ∈ S, k ∈ g.nodes) ∧
        ∀ k ∈ S, ∃ u ∈ S, EdgeRel g u k) := by
  unfold kahn
  apply kahnLoop_spec g hwf
  · omega
  · rw [keys_initIdeg]
    exact hwf.1.filter _
  · intro e he
    obtain ⟨h1, h2, h3⟩ := mem_initIdeg.1 he
    refine ⟨h1, ?_, by simp, by omega, h3⟩
    intro hz
    exact h2 (mem_initZero.1 hz).2
  · exact hwf.1.filter _
  · intro k hk
    obtain ⟨h1, h2⟩ := mem_initZero.1 hk
    exact ⟨h1, by simp, cntOut_zero_iff.1 h2⟩
  · exact List.nodup_nil
  · intro k hk
    simp at hk
  · intro n hn
    by_cases h : cntOut g [] n = 0
    · exact Or.inr (Or.inl (mem_initZero.2 ⟨hn, h⟩))
    · refine Or.inr (Or.inr ?_)
      rw [keys_initIdeg]
      exact List.mem_filter.2 ⟨hn, by simp [h]⟩
  · intro u v _ hv
    simp at hv

/-- A non-empty id list has an element minimal for the key order. -/
theorem exists_minimal (ts : List OTask) :
    ∀ (S : List Nat), S ≠ [] →
      ∃ m ∈ S, ∀ x ∈ S, ¬ idKeyLt ts x m := by
  intro S
  induction S with
  | nil => intro h; exact absurd rfl h
  | cons a rest ih =>
    intro _
    cases rest with
    | nil =>
      refine ⟨a, by simp, ?_⟩
      intro x hx
      simp only [List.mem_singleton] at hx
      subst hx
      exact idKeyLt_irrefl
    | cons b rest2 =>
      rcases ih (by simp) with ⟨m, hm, hmin⟩
      by_cases h : idKeyLt ts a m
      · refine ⟨a, by simp, ?_⟩
        intro x hx hlt
        rcases List.mem_cons.1 hx with rfl | hx
        · exact idKeyLt_irrefl hlt
        · exact hmin x hx (idKeyLt_trans hlt h)
      · refine ⟨m, by simp [hm], ?_⟩
        intro x hx hlt
        rcases List.mem_cons.1 hx with rfl | hx
        · exact h hlt
        · exact hmin x hx hlt

/-- The edges of the graph `recompute` builds, read back through the
event stream. -/
theorem edge_builderGraph {ts : List OTask} {u v : Nat} :
    EdgeRel (builderGraph ts) u v ↔
      ∃ t ∈ ts, t.t_id = v ∧ (t.t_id, u) ∈ events ts := by
  unfold builderGraph
  rw [edge_buildGraph]
  constructor
  · rintro ⟨t', ht', h1, h2⟩
    rcases List.mem_map.1 ht' with ⟨t, ht, rfl⟩
    exact ⟨t, ht, h1, mem_getDeps_replay.1 h2⟩
  · rintro ⟨t, ht, h1, h2⟩
    exact ⟨setDeps t (getDeps (replayDeps (events ts)) t.t_id),
      List.mem_map_of_mem _ ht, h1, mem_getDeps_replay.2 h2⟩

/-- The nodes of the built graph are exactly the task ids. -/
theorem nodes_builderGraph_iff {ts : List OTask} {m : Nat} :
    m ∈ (builderGraph ts).nodes ↔ ∃ t ∈ ts, t.t_id = m := by
  unfold builderGraph
  rw [mem_nodes_buildGraph]
  constructor
  · rintro ⟨t', ht', h⟩
    rcases List.mem_map.1 ht' with ⟨t, ht, rfl⟩
    rcases h with h | h
    · exact ⟨t, ht, h⟩
    · rcases events_src_mem (mem_getDeps_replay.1 h) with ⟨a, ha, ha2⟩
      exact ⟨a, ha, ha2⟩
  · rintro ⟨t, ht, h⟩
    exact ⟨setDeps t (getDeps (replayDeps (events ts)) t.t_id),
      List.mem_map_of_mem _ ht, Or.inl h⟩

/-- With unique ids the built graph is never rejected by the sorter: the
defensive cycle check is dead code on registry-reachable states. -/
theorem kahn_builder_ne_none {ts : List OTask}
    (hids : (ts.map (fun t => t.t_id)).Nodup) :
    kahn (builderGraph ts) ≠ none := by
  intro hnone
  obtain ⟨S, hS0, _, hSp⟩ := (kahn_spec _ (builderGraph_wf ts)).2 hnone
  obtain ⟨mmin, hmm, hmin⟩ := exists_minimal ts S hS0
  obtain ⟨u, huS, hue⟩ := hSp mmin hmm
  rcases edge_builderGraph.1 hue with ⟨t, _, h1, h2⟩
  exact hmin u huS (h1 ▸ events_key hids h2)

theorem recompute_success {ts : List OTask}
    (hids : (ts.map (fun t => t.t_id)).Nodup) :
    ∃ ord, kahn (builderGraph ts) = some ord ∧
      recompute ts = ((writeDeps ts).map
        (assignTimes (scheduleLoop (writeDeps ts) ord 540)), false) := by
  rcases h : kahn (builderGraph ts) with _ | ord
  · exact absurd h (kahn_builder_ne_none hids)
  · exact ⟨ord, rfl, by simp [recompute, h]⟩

/-! ## Lemmas: the work-hour scheduler -/

theorem scheduleLoop_ids (ts : List OTask) :
    ∀ (ids : List Nat) (cur : Nat),
      (scheduleLoop ts ids cur).map (fun e => e.1) = ids := by
  intro ids
  induction ids with
  | nil => intro cur; simp [scheduleLoop]
  | cons i rest ih => intro cur; simp [scheduleLoop, ih]

theorem scheduleLoop_end_eq (ts : List OTask) :
    ∀ (ids : List Nat) (cur : Nat), ∀ e ∈ scheduleLoop ts ids cur,
      e.2.2 = e.2.1 + durOf ts e.1 := by
  intro ids
  induction ids with
  | nil => intro cur e he; simp [scheduleLoop] at he
  | cons i rest ih =>
    intro cur e he
    rcases List.mem_cons.1 he with rfl | he
    · rfl
    · exact ih _ e he

theorem scheduleLoop_start_ge (ts : List OTask) :
    ∀ (ids : List Nat) (cur : Nat), ∀ e ∈ scheduleLoop ts ids cur,
      cur ≤ e.2.1 := by
  intro ids
  induction ids with
  | nil => intro cur e he; simp [scheduleLoop] at he
  | cons i rest ih =>
    intro cur e he
    rcases List.mem_cons.1 he with rfl | he
    · simp only []
      split
      · omega
      · omega
    · have h2 := ih _ e he
      have : cur ≤ (if 1020 < cur + durOf ts i
          then (cur / 1440) * 1440 + 540 + 1440 else cur) + durOf ts i := by
        split <;> omega
      omega

/-- The schedule is strictly serial: each interval ends before the next
one starts. -/
theorem scheduleLoop_pairwise (ts : List OTask) :
    ∀ (ids : List Nat) (cur : Nat),
      List.Pairwise (fun a b : Nat × Nat × Nat => a.2.2 ≤ b.2.1)
        (scheduleLoop ts ids cur) := by
  intro ids
  induction ids with
  | nil => intro cur; simp [scheduleLoop]
  | cons i rest ih =>
    intro cur
    rw [scheduleLoop]
    refine List.Pairwise.cons ?_ (ih _)
    intro e he
    exact scheduleLoop_start_ge ts rest _ e he

/-- Every scheduled slot of a run whose durations fit the window lies
inside a single day's 09:00-17:00 window. -/
theorem scheduleLoop_window (ts : List OTask) :
    ∀ (ids : List Nat) (cur : Nat),
      540 ≤ cur % 1440 → cur % 1440 ≤ 1020 →
      (∀ i ∈ ids, durOf ts i ≤ 480) →
      ∀ e ∈ scheduleLoop ts ids cur,
        540 ≤ e.2.1 % 1440 ∧ e.2.2 % 1440 ≤ 1020 ∧
          e.2.1 / 1440 = e.2.2 / 1440 := by
  intro ids
  induction ids with
  | nil => intro cur _ _ _ e he; simp [scheduleLoop] at he
  | cons i rest ih =>
    intro cur h1 h2 hdur e he
    have hdi : durOf ts i ≤ 480 := hdur i (by simp)
    rcases List.mem_cons.1 he with rfl | he
    · simp only []
      split
      · rename_i hgt
        constructor
        · omega
        · constructor
          · omega
          · omega
      · rename_i hle
        constructor
        · omega
        · constructor
          · omega
          · omega
    · apply ih _ _ _ _ e he
      · split <;> omega
      · split <;> omega
      · intro j hj
        exact hdur j (by simp [hj])

theorem schedFind_mem {sc : List (Nat × Nat × Nat)} {i : Nat}
    {se : Nat × Nat} (h : schedFind sc i = some se) : (i, se) ∈ sc := by
  unfold schedFind at h
  rcases Option.map_eq_some'.1 h with ⟨e, he, hse⟩
  have h1 := List.find?_some he
  have h2 := List.mem_of_find?_eq_some he
  rcases e with ⟨i', se'⟩
  simp at h1 hse
  subst h1
  subst hse
  exact List.mem_reverse.1 h2

theorem schedFind_isSome {sc : List (Nat × Nat × Nat)} {i : Nat}
    (h : i ∈ sc.map (fun e => e.1)) : ∃ se, schedFind sc i = some se := by
  rcases List.mem_map.1 h with ⟨e, he, hk⟩
  have hrev : e ∈ sc.reverse := List.mem_reverse.2 he
  have : (List.find? (fun e => e.1 = i) sc.reverse).isSome :=
    List.find?_isSome.2 ⟨e, hrev, by simp [hk]⟩
  rcases Option.isSome_iff_exists.1 this with ⟨e', he'⟩
  exact ⟨e'.2, by simp [schedFind, he']⟩

/-- Under unique ids, `G.nodes[i]["task"].t_duration` is the duration of
the one task with id `i`. -/
theorem durOf_eq_of_nodup {ts : List OTask}
    (h : (ts.map (fun t => t.t_id)).Nodup) {t : OTask} (ht : t ∈ ts) :
    durOf ts t.t_id = t.t_duration := by
  have hm : t ∈ ts.reverse := List.mem_reverse.2 ht
  have := taskOf_eq_of_nodup (by simpa [List.map_reverse] using h) hm
  unfold durOf
  unfold taskOf at this
  rw [this]
  rfl

/-! ## Lemmas: recompute reads only id, deadline, priority, duration

The builder and scheduler consult only those four fields, so a second run
on the rewritten task list reproduces the first run's output exactly. -/

theorem assignTimes_fields (sc : List (Nat × Nat × Nat)) (t : OTask) :
    (assignTimes sc t).t_id = t.t_id ∧
    (assignTimes sc t).t_deadline = t.t_deadline ∧
    (assignTimes sc t).t_priority = t.t_priority ∧
    (assignTimes sc t).t_duration = t.t_duration ∧
    (assignTimes sc t).t_dependencies = t.t_dependencies := by
  unfold assignTimes
  cases schedFind sc t.t_id <;> exact ⟨rfl, rfl, rfl, rfl, rfl⟩

theorem setDeps_self (t : OTask) : setDeps t t.t_dependencies = t := by
  cases t
  rfl

theorem setDeps_setDeps (t : OTask) (d d' : List Nat) :
    setDeps (setDeps t d) d' = setDeps t d' := rfl

theorem assignTimes_idem (sc : List (Nat × Nat × Nat)) (t : OTask) :
    assignTimes sc (assignTimes sc t) = assignTimes sc t := by
  unfold assignTimes
  rcases h : schedFind sc t.t_id with _ | se
  · simp [h]
  · have hid : (setTimes t (some se.1) (some se.2)).t_id = t.t_id := rfl
    simp only [hid, h]
    cases t
    rfl

theorem groupAdd_map {f : OTask → OTask} :
    ∀ (gs : List (Nat × List OTask)) (d : Nat) (t : OTask),
      groupAdd (gs.map (fun e => (e.1, e.2.map f))) d (f t) =
        (groupAdd gs d t).map (fun e => (e.1, e.2.map f)) := by
  intro gs d t
  induction gs with
  | nil => simp [groupAdd]
  | cons e rest ih =>
    by_cases he : e.1 = d
    · simp [groupAdd, he]
    · simp [groupAdd, he, ih]

theorem groupByDeadline_map {f : OTask → OTask}
    (hdl : ∀ t, (f t).t_deadline = t.t_deadline) :
    ∀ (ts : List OTask) (gs : List (Nat × List OTask)),
      (ts.map f).foldl (fun gs t => groupAdd gs t.t_deadline t)
          (gs.map (fun e => (e.1, e.2.map f))) =
        (ts.foldl (fun gs t => groupAdd gs t.t_deadline t) gs).map
          (fun e => (e.1, e.2.map f)) := by
  intro ts
  induction ts with
  | nil => intro gs; simp
  | cons t rest ih =>
    intro gs
    simp only [List.map_cons, List.foldl_cons, hdl]
    rw [groupAdd_map]
    exact ih _

theorem getGroup_map {f : OTask → OTask} :
    ∀ (gs : List (Nat × List OTask)) (d : Nat),
      getGroup (gs.map (fun e => (e.1, e.2.map f))) d =
        (getGroup gs d).map f := by
  intro gs d
  induction gs with
  | nil => simp [getGroup]
  | cons e rest ih =>
    by_cases he : e.1 = d
    · simp [getGroup, List.find?, he]
    · simpa [getGroup, List.find?, he] using ih

theorem keysOf_map {f : OTask → OTask} (gs : List (Nat × List OTask)) :
    keysOf (gs.map (fun e => (e.1, e.2.map f))) = keysOf gs := by
  simp [keysOf]

theorem sameDayEv_map {f : OTask → OTask}
    (hid : ∀ t, (f t).t_id = t.t_id) :
    ∀ l : List OTask, sameDayEv (l.map f) = sameDayEv l := by
  intro l
  induction l with
  | nil => rfl
  | cons t rest ih =>
    simp only [List.map_cons, sameDayEv, ih, List.map_map]
    congr 1
    apply List.map_congr_left
    intro u _
    simp [Function.comp, hid]

theorem crossEv_map {f : OTask → OTask}
    (hid : ∀ t, (f t).t_id = t.t_id) :
    ∀ (srcs tgts : List OTask),
      crossEv (srcs.map f) (tgts.map f) = crossEv srcs tgts := by
  intro srcs tgts
  induction srcs with
  | nil => rfl
  | cons s rest ih =>
    simp only [List.map_cons, crossEv_cons, ih, List.map_map]
    congr 1
    · apply List.map_congr_left
      intro u _
      simp [Function.comp, hid]

theorem sortG_map {f : OTask → OTask}
    (hid : ∀ t, (f t).t_id = t.t_id)
    (hpri : ∀ t, (f t).t_priority = t.t_priority) :
    ∀ l : List OTask, sortG (l.map f) = (sortG l).map f := by
  intro l
  unfold sortG
  exact (List.map_insertionSort lexLe lexLe f l (by
    intro a _ b _
    unfold lexLe
    rw [hid, hid, hpri, hpri])).symm

theorem eventsLoop_single (gs : List (Nat × List OTask)) (d : Nat) :
    eventsLoop gs [d] = sameDayEv (sortG (getGroup gs d)) := by
  simp [eventsLoop]

theorem eventsLoop_cons2 (gs : List (Nat × List OTask)) (d d2 : Nat)
    (l2 : List Nat) :
    eventsLoop gs (d :: d2 :: l2) =
      sameDayEv (sortG (getGroup gs d)) ++
        (crossEv (sortG (getGroup gs d)) (getGroup gs d2) ++
          eventsLoop gs (d2 :: l2)) := rfl

theorem eventsLoop_map {f : OTask → OTask}
    (hid : ∀ t, (f t).t_id = t.t_id)
    (hpri : ∀ t, (f t).t_priority = t.t_priority) :
    ∀ (l : List Nat) (gs : List (Nat × List OTask)),
      eventsLoop (gs.map (fun e => (e.1, e.2.map f))) l = eventsLoop gs l := by
  intro l
  induction l with
  | nil => intro gs; rfl
  | cons d rest ih =>
    intro gs
    cases rest with
    | nil =>
      rw [eventsLoop_single, eventsLoop_single, getGroup_map,
        sortG_map hid hpri, sameDayEv_map hid]
    | cons d2 l2 =>
      rw [eventsLoop_cons2, eventsLoop_cons2, getGroup_map, getGroup_map,
        sortG_map hid hpri, sameDayEv_map hid, crossEv_map hid, ih]

theorem events_map {f : OTask → OTask}
    (hid : ∀ t, (f t).t_id = t.t_id)
    (hdl : ∀ t, (f t).t_deadline = t.t_deadline)
    (hpri : ∀ t, (f t).t_priority = t.t_priority)
    (ts : List OTask) : events (ts.map f) = events ts := by
  unfold events
  have hg : groupByDeadline (ts.map f) =
      (groupByDeadline ts).map (fun e => (e.1, e.2.map f)) := by
    unfold groupByDeadline
    have := groupByDeadline_map hdl ts []
    simpa using this
  rw [hg]
  rw [eventsLoop_map hid hpri]
  congr 1
  unfold sortedKeys
  rw [keysOf_map]

theorem buildFold_map {f : OTask → OTask}
    (hid : ∀ t, (f t).t_id = t.t_id)
    (hdeps : ∀ t, (f t).t_dependencies = t.t_dependencies) :
    ∀ (ts : List OTask) (g : Graph),
      (ts.map f).foldl buildStep g = ts.foldl buildStep g := by
  intro ts
  induction ts with
  | nil => intro g; rfl
  | cons t rest ih =>
    intro g
    simp only [List.map_cons, List.foldl_cons]
    rw [show buildStep g (f t) = buildStep g t from by
      unfold buildStep
      rw [hid, hdeps]]
    exact ih _

theorem buildGraph_map {f : OTask → OTask}
    (hid : ∀ t, (f t).t_id = t.t_id)
    (hdeps : ∀ t, (f t).t_dependencies = t.t_dependencies)
    (ts : List OTask) : buildGraph (ts.map f) = buildGraph ts :=
  buildFold_map hid hdeps ts _

theorem durOf_map {f : OTask → OTask}
    (hid : ∀ t, (f t).t_id = t.t_id)
    (hdur : ∀ t, (f t).t_duration = t.t_duration)
    (ts : List OTask) (i : Nat) : durOf (ts.map f) i = durOf ts i := by
  unfold durOf
  rw [← List.map_reverse]
  induction ts.reverse with
  | nil => rfl
  | cons a rest ih =>
    simp only [List.map_cons, List.find?]
    rw [hid]
    by_cases h : a.t_id = i
    · simp [h, hdur]
    · simpa [h] using ih

theorem scheduleLoop_congr {ts1 ts2 : List OTask}
    (h : ∀ i, durOf ts1 i = durOf ts2 i) :
    ∀ (ids : List Nat) (cur : Nat),
      scheduleLoop ts1 ids cur = scheduleLoop ts2 ids cur := by
  intro ids
  induction ids with
  | nil => intro cur; rfl
  | cons i rest ih =>
    intro cur
    simp only [scheduleLoop, h, ih]

theorem events_writeDeps (ts : List OTask) :
    events (writeDeps ts) = events ts := by
  unfold writeDeps
  apply events_map <;> intro t <;> rfl

theorem writeDeps_deps (ts : List OTask) :
    ∀ w ∈ writeDeps ts,
      w.t_dependencies = getDeps (replayDeps (events ts)) w.t_id := by
  intro w hw
  rcases List.mem_map.1 hw with ⟨t, _, rfl⟩
  rfl

theorem writeDeps_eq_self {l : List OTask}
    (h : ∀ t ∈ l, t.t_dependencies = getDeps (replayDeps (events l)) t.t_id) :
    writeDeps l = l := by
  unfold writeDeps
  have h2 : ∀ t ∈ l,
      setDeps t (getDeps (replayDeps (events l)) t.t_id) = id t := by
    intro t ht
    rw [← h t ht]
    exact setDeps_self t
  rw [List.map_congr_left h2, List.map_id]

theorem writeDeps_writeDeps (ts : List OTask) :
    writeDeps (writeDeps ts) = writeDeps ts := by
  apply writeDeps_eq_self
  intro t ht
  rw [events_writeDeps]
  exact writeDeps_deps ts t ht

theorem writeDeps_ids (ts : List OTask) :
    (writeDeps ts).map (fun t => t.t_id) = ts.map (fun t => t.t_id) := by
  unfold writeDeps
  rw [List.map_map]
  apply List.map_congr_left
  intro t _
  rfl

/-- Idempotence of the full pipeline: the graph builder and scheduler read
only `id`, `deadline`, `priority` and `duration`, none of which a recompute
changes, so a second recompute reproduces the first one's state exactly. -/
theorem recompute_idem (ts : List OTask) :
    recompute ((recompute ts).1) = recompute ts := by
  have hbg : builderGraph (writeDeps ts) = builderGraph ts := by
    unfold builderGraph
    rw [writeDeps_writeDeps]
  rcases hk : kahn (builderGraph ts) with _ | ord
  · have h1 : recompute ts = (writeDeps ts, true) := by
      unfold recompute
      rw [hk]
    rw [h1]
    have hk2 : kahn (builderGraph (writeDeps ts)) = none := by
      rw [hbg]
      exact hk
    show recompute (writeDeps ts) = (writeDeps ts, true)
    unfold recompute
    rw [hk2, writeDeps_writeDeps]
  · have h1 : recompute ts = ((writeDeps ts).map
        (assignTimes (scheduleLoop (writeDeps ts) ord 540)), false) := by
      unfold recompute
      rw [hk]
    rw [h1]
    have hevp : events ((writeDeps ts).map
        (assignTimes (scheduleLoop (writeDeps ts) ord 540))) = events ts := by
      rw [events_map (fun t => (assignTimes_fields _ t).1)
        (fun t => (assignTimes_fields _ t).2.1)
        (fun t => (assignTimes_fields _ t).2.2.1) (writeDeps ts),
        events_writeDeps]
    have hwpost : writeDeps ((writeDeps ts).map
        (assignTimes (scheduleLoop (writeDeps ts) ord 540))) =
        (writeDeps ts).map
          (assignTimes (scheduleLoop (writeDeps ts) ord 540)) := by
      apply writeDeps_eq_self
      intro u hu
      rw [hevp]
      rcases List.mem_map.1 hu with ⟨w, hw, rfl⟩
      rw [(assignTimes_fields _ w).2.2.2.2, (assignTimes_fields _ w).1]
      exact writeDeps_deps ts w hw
    have hbg2 : builderGraph ((writeDeps ts).map
        (assignTimes (scheduleLoop (writeDeps ts) ord 540))) =
        builderGraph ts := by
      unfold builderGraph
      rw [hwpost]
      rw [buildGraph_map (fun t => (assignTimes_fields _ t).1)
        (fun t => (assignTimes_fields _ t).2.2.2.2)]
    have hsched : scheduleLoop ((writeDeps ts).map
          (assignTimes (scheduleLoop (writeDeps ts) ord 540))) ord 540 =
        scheduleLoop (writeDeps ts) ord 540 := by
      apply scheduleLoop_congr
      intro i
      exact durOf_map (fun t => (assignTimes_fields _ t).1)
        (fun t => (assignTimes_fields _ t).2.2.2.1) _ i
    show recompute ((writeDeps ts).map
        (assignTimes (scheduleLoop (writeDeps ts) ord 540))) = _
    unfold recompute
    rw [hbg2, hk]
    dsimp only
    rw [hwpost, hsched, List.map_map]
    refine congrArg (fun l => (l, false)) ?_
    apply List.map_congr_left
    intro w _
    exact assignTimes_idem _ w

/-! ## Lemmas: the recompute post-state -/

theorem forall2_map_self {R : OTask → OTask → Prop} {l : List OTask}
    (f : OTask → OTask) (h : ∀ t ∈ l, R t (f t)) :
    List.Forall₂ R l (l.map f) := by
  induction l with
  | nil => exact List.Forall₂.nil
  | cons t rest ih =>
    exact List.Forall₂.cons (h t (by simp))
      (ih (fun u hu => h u (by simp [hu])))

/-- In both branches the post-state's dependency lists are exactly the
freshly built ones. -/
theorem recompute_post_deps (ts : List OTask) :
    ∀ t ∈ (recompute ts).1,
      t.t_dependencies = getDeps (replayDeps (events ts)) t.t_id := by
  intro t ht
  rcases hk : kahn (builderGraph ts) with _ | ord
  · have h1 : (recompute ts).1 = writeDeps ts := by
      unfold recompute
      rw [hk]
    rw [h1] at ht
    exact writeDeps_deps ts t ht
  · have h1 : (recompute ts).1 = (writeDeps ts).map
        (assignTimes (scheduleLoop (writeDeps ts) ord 540)) := by
      unfold recompute
      rw [hk]
    rw [h1] at ht
    rcases List.mem_map.1 ht with ⟨w, hw, rfl⟩
    rw [(assignTimes_fields _ w).2.2.2.2, (assignTimes_fields _ w).1]
    exact writeDeps_deps ts w hw

theorem recompute_ids (ts : List OTask) :
    ((recompute ts).1).map (fun t => t.t_id) = ts.map (fun t => t.t_id) := by
  rcases hk : kahn (builderGraph ts) with _ | ord
  · have h1 : (recompute ts).1 = writeDeps ts := by
      unfold recompute
      rw [hk]
    rw [h1]
    exact writeDeps_ids ts
  · have h1 : (recompute ts).1 = (writeDeps ts).map
        (assignTimes (scheduleLoop (writeDeps ts) ord 540)) := by
      unfold recompute
      rw [hk]
    rw [h1, List.map_map]
    have hcg : ∀ w ∈ writeDeps ts,
        ((fun t => t.t_id) ∘
          assignTimes (scheduleLoop (writeDeps ts) ord 540)) w =
          (fun t => t.t_id) w := fun w _ => (assignTimes_fields _ w).1
    rw [List.map_congr_left hcg]
    exact writeDeps_ids ts

/-- On a successful recompute every task carries timestamps coming from
its slot in the serial schedule. -/
theorem recompute_post_times {ts : List OTask}
    (hids : (ts.map (fun t => t.t_id)).Nodup) :
    ∃ ord, kahn (builderGraph ts) = some ord ∧ (recompute ts).2 = false ∧
      ∀ t ∈ (recompute ts).1, ∃ s e,
        t.t_start_time = some s ∧ t.t_end_time = some e ∧
        (t.t_id, s, e) ∈ scheduleLoop (writeDeps ts) ord 540 ∧
        e = s + t.t_duration := by
  obtain ⟨ord, hk, heq⟩ := recompute_success hids
  refine ⟨ord, hk, by rw [heq], ?_⟩
  intro t ht
  rw [heq] at ht
  obtain ⟨hcomp, _, _, _⟩ := (kahn_spec _ (builderGraph_wf ts)).1 ord hk
  rcases List.mem_map.1 ht with ⟨w, hw, rfl⟩
  have hwid : w.t_id ∈ (builderGraph ts).nodes := by
    rcases List.mem_map.1 hw with ⟨t0, ht0, rfl⟩
    exact nodes_builderGraph_iff.2 ⟨t0, ht0, rfl⟩
  have hword : w.t_id ∈ ord := hcomp _ hwid
  have hsid : w.t_id ∈ (scheduleLoop (writeDeps ts) ord 540).map
      (fun e => e.1) := by
    rw [scheduleLoop_ids]
    exact hword
  obtain ⟨se, hse⟩ := schedFind_isSome hsid
  have hmem : (w.t_id, se) ∈ scheduleLoop (writeDeps ts) ord 540 :=
    schedFind_mem hse
  have hfin : assignTimes (scheduleLoop (writeDeps ts) ord 540) w =
      setTimes w (some se.1) (some se.2) := by
    unfold assignTimes
    rw [hse]
  have hidsw : ((writeDeps ts).map (fun t => t.t_id)).Nodup := by
    rw [writeDeps_ids]
    exact hids
  have hdw : durOf (writeDeps ts) w.t_id = w.t_duration :=
    durOf_eq_of_nodup hidsw hw
  have hend := scheduleLoop_end_eq (writeDeps ts) ord 540 _ hmem
  refine ⟨se.1, se.2, by rw [hfin]; rfl, by rw [hfin]; rfl, ?_, ?_⟩
  · rw [hfin]
    show ((setTimes w (some se.1) (some se.2)).t_id, se.1, se.2) ∈ _
    have : (setTimes w (some se.1) (some se.2)).t_id = w.t_id := rfl
    rw [this]
    exact hmem
  · have : (assignTimes (scheduleLoop (writeDeps ts) ord 540) w).t_duration =
        w.t_duration := (assignTimes_fields _ w).2.2.2.1
    rw [hfin] at this ⊢
    rw [this]
    simpa [hdw] using hend

/-- Durations looked up during scheduling are durations of input tasks. -/
theorem durOf_writeDeps_le {ts : List OTask}
    (hids : (ts.map (fun t => t.t_id)).Nodup)
    (hdur : ∀ t ∈ ts, t.t_duration ≤ 480) :
    ∀ i ∈ (builderGraph ts).nodes, durOf (writeDeps ts) i ≤ 480 := by
  intro i hi
  rcases nodes_builderGraph_iff.1 hi with ⟨t0, ht0, rfl⟩
  have hidsw : ((writeDeps ts).map (fun t => t.t_id)).Nodup := by
    rw [writeDeps_ids]
    exact hids
  have hw : setDeps t0 (getDeps (replayDeps (events ts)) t0.t_id) ∈
      writeDeps ts := List.mem_map_of_mem _ ht0
  have := durOf_eq_of_nodup hidsw hw
  rw [show (setDeps t0 (getDeps (replayDeps (events ts)) t0.t_id)).t_id =
    t0.t_id from rfl] at this
  rw [this]
  exact hdur t0 ht0

/-- The key-increase lemma extended along edge chains. -/
theorem chain_idKeyLt {ts : List OTask} {g : Graph}
    (hedge : ∀ u v, EdgeRel g u v → idKeyLt ts u v) :
    ∀ (p : List Nat) (c x : Nat), p ≠ [] → List.Chain (EdgeRel g) c p →
      (c :: p).getLast? = some x → idKeyLt ts c x := by
  intro p
  induction p with
  | nil => intro c x h; exact absurd rfl h
  | cons b p2 ih =>
    intro c x _ hchain hlast
    cases hchain with
    | cons hcb htail =>
      cases p2 with
      | nil =>
        have hx : b = x := by simpa using hlast
        subst hx
        exact hedge c b hcb
      | cons b2 p3 =>
        have hlast2 : (b :: b2 :: p3).getLast? = some x := by
          rw [← hlast]
          exact List.getLast?_cons_cons.symm
        exact idKeyLt_trans (hedge c b hcb)
          (ih b x (by simp) htail hlast2)

/-! ## The claims -/

/-- C1: For the three-task input A(deadline 2025-01-10, priority 1,
duration 60), B(deadline 2025-01-10, priority 2, duration 30),
C(deadline 2025-01-11, priority 1, duration 60), the claimed schedule puts
C at 09:00-10:00 of the following day.  The code schedules C at
10:30-11:30 of the *same* day (minutes 630-690): since C still fits
before 17:00, the cursor never rolls over — the scheduler packs by
cursor, not by deadline day.  The dependency part of the claim does hold. -/
theorem claim_C1_counterexample :
    (recompute [exA, exB, exC]).2 = false ∧
    ((recompute [exA, exB, exC]).1.map
      (fun t => (t.t_id, t.t_start_time, t.t_end_time))) =
      [(1, some 540, some 600), (2, some 600, some 630),
        (3, some 630, some 690)] ∧
    ¬ (∃ t ∈ (recompute [exA, exB, exC]).1,
        t.t_id = 3 ∧ t.t_start_time = some 1980 ∧
          t.t_end_time = some 2040) := by
  refine ⟨by decide, by decide, by decide⟩

/-- C1 (amended): a single recompute of the scenario produces dependencies
B depends on A, C depends on A and B, and the schedule A 09:00-10:00,
B 10:00-10:30, C 10:30-11:30 — all on the current day (minutes from
today's midnight). -/
theorem claim_C1_amended :
    ((recompute [exA, exB, exC]).1.map
      (fun t => (t.t_id, t.t_dependencies, t.t_start_time, t.t_end_time))) =
      [(1, [], some 540, some 600), (2, [1], some 600, some 630),
        (3, [1, 2], some 630, some 690)] := by
  decide

/-- C2: on the cycle path the claim says nothing is partially rewritten.
In fact the dependency rewrite of lines 110-111 happens *before* the
cycle check: with the duplicate-id registry `[exT1, exT2]` the built graph
has the self-loop `1 → 1`, the cycle branch runs (flag `true`), the stale
timestamps survive, but both tasks' `t_dependencies` have already been
replaced (`[99]` became `[1]`). -/
theorem claim_C2_counterexample :
    (recompute [exT1, exT2]).2 = true ∧
    ((recompute [exT1, exT2]).1.map (fun t => t.t_dependencies)) =
      [[1], [1]] ∧
    ((recompute [exT1, exT2]).1.map
      (fun t => (t.t_start_time, t.t_end_time))) =
      [(none, none), (some 77, some 137)] ∧
    ¬ ((recompute [exT1, exT2]).1.map (fun t => t.t_dependencies) =
        [exT1, exT2].map (fun t => t.t_dependencies)) := by
  refine ⟨by decide, by decide, by decide, by decide⟩

/-- C2 (amended): whenever the cycle branch runs, the recompute stops
before any timestamp is written — `t_start_time`, `t_end_time`, `t_status`
and identity fields are untouched — but every task's `t_dependencies` has
already been rewritten to the freshly built list; no error value reaches
the caller (the Python function prints and returns `None`, which both HTTP
handlers discard). -/
theorem claim_C2_amended (ts : List OTask)
    (h : (recompute ts).2 = true) :
    (recompute ts).1 = writeDeps ts ∧
    List.Forall₂ (fun t t' =>
      t'.t_start_time = t.t_start_time ∧ t'.t_end_time = t.t_end_time ∧
      t'.t_id = t.t_id ∧ t'.t_status = t.t_status ∧
      t'.t_dependencies = getDeps (replayDeps (events ts)) t.t_id)
      ts (recompute ts).1 := by
  rcases hk : kahn (builderGraph ts) with _ | ord
  · have h1 : (recompute ts).1 = writeDeps ts := by
      unfold recompute
      rw [hk]
    refine ⟨h1, ?_⟩
    rw [h1]
    apply forall2_map_self
    intro t _
    exact ⟨rfl, rfl, rfl, rfl, rfl⟩
  · exfalso
    have h2 : (recompute ts).2 = false := by
      unfold recompute
      rw [hk]
    rw [h] at h2
    cases h2

theorem claim_C2_amended_witness :
    (recompute [exT1, exT2]).2 = true ∧
    ((recompute [exT1, exT2]).1 = writeDeps [exT1, exT2] ∧
    List.Forall₂ (fun t t' =>
      t'.t_start_time = t.t_start_time ∧ t'.t_end_time = t.t_end_time ∧
      t'.t_id = t.t_id ∧ t'.t_status = t.t_status ∧
      t'.t_dependencies =
        getDeps (replayDeps (events [exT1, exT2])) t.t_id)
      [exT1, exT2] (recompute [exT1, exT2]).1) :=
  ⟨by decide, claim_C2_amended [exT1, exT2] (by decide)⟩

/-- C3: the claim expects `InvalidDuration` for a parsed duration of 500
minutes.  `parse_task` performs no duration validation whatsoever: the
500-minute extraction parses successfully into a task with
`t_duration = 500`, `create_task` appends it, and the scheduler assigns it
09:00-17:20 of the next day (minutes 1980-2480) — accepted and scheduled,
not rejected. -/
theorem claim_C3_counterexample :
    (∃ t500, parse_task 1 "work for 500 minutes" exR500 =
        Except.ok t500 ∧ t500.t_duration = 500 ∧ ¬ t500.t_duration ≤ 480) ∧
    ((create_task [] 1 "work for 500 minutes" exR500).1.map
      (fun t => (t.t_id, t.t_duration, t.t_start_time, t.t_end_time))) =
      [(1, 500, some 1980, some 2480)] := by
  constructor
  · exact ⟨_, rfl, rfl, by decide⟩
  · decide

/-- C3 (amended): intake rejects only a missing date, a missing time, or
an invalid/past date.  There is no duration check of any kind: whenever
those three flags pass, parsing succeeds and the task carries the parsed
duration unchanged — `value` minutes (or `value * 60` for an "hour" unit)
for any value whatsoever, including 500 or values outside `[1, 1440]`. -/
theorem claim_C3_amended (counter : Nat) (descr : String) (r : RawExtract)
    (h1 : r.hasDate = true) (h2 : r.hasTime = true) (h3 : r.dateOk = true)
    (v : Nat) (unit : String) (hd : r.durMatch = some (v, unit)) :
    ∃ t, parse_task counter descr r = Except.ok t ∧
      t.t_duration = (if strContains "hour" unit then v * 60 else v) ∧
      t.t_status = "pending" := by
  refine ⟨newTask counter r.nameText descr
    (if r.cat = "professional" then 1
      else if r.cat = "personal" then 2 else 3)
    r.dateVal (if strContains "hour" unit then v * 60 else v) "pending",
    ?_, rfl, rfl⟩
  unfold parse_task
  rw [h1, h2, h3, hd]
  rfl

theorem claim_C3_amended_witness :
    exR500.hasDate = true ∧ exR500.hasTime = true ∧ exR500.dateOk = true ∧
    exR500.durMatch = some (500, "minute") ∧
    ∃ t, parse_task 1 "work for 500 minutes" exR500 = Except.ok t ∧
      t.t_duration =
        (if strContains "hour" "minute" then 500 * 60 else 500) ∧
      t.t_status = "pending" :=
  ⟨rfl, rfl, rfl, rfl,
    claim_C3_amended 1 "work for 500 minutes" exR500 rfl rfl rfl 500
      "minute" rfl⟩

/-- C4: for a registry (unique ids) in which every duration is at most the
480-minute window, recompute succeeds and assigns every task a start no
earlier than 09:00 of its day, an end no later than 17:00 of the same day,
and an interval of exactly its duration — no task spans two days.  (This
holds despite `work_end` staying pinned to day 0: once the cursor rolls
past day 0, the guard fires for every later task, which is then placed at
09:00 of a fresh day, still inside that day's window.) -/
theorem claim_C4_window (ts : List OTask)
    (hids : (ts.map (fun t => t.t_id)).Nodup)
    (hdur : ∀ t ∈ ts, t.t_duration ≤ 480) :
    (recompute ts).2 = false ∧
    ∀ t ∈ (recompute ts).1, ∃ s e,
      t.t_start_time = some s ∧ t.t_end_time = some e ∧
      540 ≤ s % 1440 ∧ e % 1440 ≤ 1020 ∧ s / 1440 = e / 1440 ∧
      e = s + t.t_duration := by
  obtain ⟨ord, hk, hflag, hpost⟩ := recompute_post_times hids
  refine ⟨hflag, ?_⟩
  intro t ht
  obtain ⟨s, e, hs, he, hmem, hse⟩ := hpost t ht
  obtain ⟨_, _, hsub, _⟩ := (kahn_spec _ (builderGraph_wf ts)).1 ord hk
  have hwin := scheduleLoop_window (writeDeps ts) ord 540 (by omega)
    (by omega)
    (fun i hi => durOf_writeDeps_le hids hdur i (hsub i hi)) _ hmem
  exact ⟨s, e, hs, he, hwin.1, hwin.2.1, hwin.2.2, hse⟩

theorem claim_C4_window_witness :
    (([exA, exB, exC].map (fun t => t.t_id)).Nodup ∧
      ∀ t ∈ [exA, exB, exC], t.t_duration ≤ 480) ∧
    ((recompute [exA, exB, exC]).2 = false ∧
    ∀ t ∈ (recompute [exA, exB, exC]).1, ∃ s e,
      t.t_start_time = some s ∧ t.t_end_time = some e ∧
      540 ≤ s % 1440 ∧ e % 1440 ≤ 1020 ∧ s / 1440 = e / 1440 ∧
      e = s + t.t_duration) :=
  ⟨⟨by decide, by decide⟩,
    claim_C4_window [exA, exB, exC] (by decide) (by decide)⟩

/-- C5: the claim's hypothesis — pairwise-distinct `(deadline, priority,
id)` tuples — does not make the edge set acyclic.  With id 5 on day 1,
id 9 on day 2 and id 5 again on day 3 the triples are pairwise distinct,
yet the builder emits both `5 → 9` (day 1 to day 2) and `9 → 5` (day 2 to
day 3), a directed cycle through the shared node 5.  The spec's argument
breaks because the graph is keyed by id, so one id carrying two tuples
collapses two "ordered" vertices into one. -/
theorem claim_C5_counterexample :
    List.Pairwise (fun a b : OTask =>
      (a.t_deadline, a.t_priority, a.t_id) ≠
        (b.t_deadline, b.t_priority, b.t_id)) [exX, exY, exZ] ∧
    HasCycle (builderGraph [exX, exY, exZ]) := by
  constructor
  · decide
  · exact ⟨5, [9, 5], by simp,
      List.Chain.cons (by decide) (List.Chain.cons (by decide)
        List.Chain.nil), by decide⟩

/-- C5 (amended): under the registry invariant of pairwise-distinct *ids*,
every emitted edge goes from a strictly smaller `(deadline, priority, id)`
tuple to a strictly larger one, and the edge set is acyclic. -/
theorem claim_C5_amended (ts : List OTask)
    (hids : (ts.map (fun t => t.t_id)).Nodup) :
    (∀ u v, EdgeRel (builderGraph ts) u v → idKeyLt ts u v) ∧
    ¬ HasCycle (builderGraph ts) := by
  have hedge : ∀ u v, EdgeRel (builderGraph ts) u v → idKeyLt ts u v := by
    intro u v he
    rcases edge_builderGraph.1 he with ⟨t, _, h1, h2⟩
    exact h1 ▸ events_key hids h2
  refine ⟨hedge, ?_⟩
  rintro ⟨c, p, hp, hchain, hlast⟩
  exact idKeyLt_irrefl (chain_idKeyLt hedge p c c hp hchain hlast)

theorem claim_C5_amended_witness :
    (([exA, exB, exC].map (fun t => t.t_id)).Nodup) ∧
    ((∀ u v, EdgeRel (builderGraph [exA, exB, exC]) u v →
        idKeyLt [exA, exB, exC] u v) ∧
      ¬ HasCycle (builderGraph [exA, exB, exC])) :=
  ⟨by decide, claim_C5_amended [exA, exB, exC] (by decide)⟩

/-- C6: recompute is a pure function of the task set (two runs coincide
definitionally — the embedding fixes the current date as day 0), and for
two tasks sharing deadline and priority the smaller id precedes the
larger: in the sorted group, as an emitted dependency edge
(`t.t_id` appears in `u`'s rebuilt dependency list), and in the
topological order the scheduler consumes. -/
theorem claim_C6_determinism (ts : List OTask)
    (hids : (ts.map (fun t => t.t_id)).Nodup)
    (t u : OTask) (ht : t ∈ ts) (hu : u ∈ ts)
    (hdl : t.t_deadline = u.t_deadline)
    (hpri : t.t_priority = u.t_priority) (hid : t.t_id < u.t_id) :
    recompute ts = recompute ts ∧
    [t, u].Sublist (sortG (getGroup (groupByDeadline ts) t.t_deadline)) ∧
    (∃ u2 ∈ (recompute ts).1, u2.t_id = u.t_id ∧
      t.t_id ∈ u2.t_dependencies) ∧
    ∃ ord, kahn (builderGraph ts) = some ord ∧
      listBefore t.t_id u.t_id ord := by
  have hpl : priLt t u := Or.inr ⟨hpri, hid⟩
  have hev : (u.t_id, t.t_id) ∈ events ts :=
    events_of_same_group ht hu hdl hpl
  refine ⟨rfl, ?_, ?_, ?_⟩
  · exact pair_sublist_of_sorted _ (sorted_sortG _) t u
      (mem_sortG.2 (mem_getGroup.2 ⟨ht, rfl⟩))
      (mem_sortG.2 (mem_getGroup.2 ⟨hu, hdl.symm⟩)) hpl
  · obtain ⟨ord, hk, heq⟩ := recompute_success hids
    refine ⟨assignTimes (scheduleLoop (writeDeps ts) ord 540)
      (setDeps u (getDeps (replayDeps (events ts)) u.t_id)), ?_, ?_, ?_⟩
    · rw [heq]
      exact List.mem_map_of_mem _ (List.mem_map_of_mem _ hu)
    · exact (assignTimes_fields _ _).1
    · rw [(assignTimes_fields _ _).2.2.2.2]
      show t.t_id ∈ (setDeps u (getDeps (replayDeps (events ts)) u.t_id)).t_dependencies
      show t.t_id ∈ getDeps (replayDeps (events ts)) u.t_id
      exact mem_getDeps_replay.2 hev
  · obtain ⟨ord, hk, _⟩ := recompute_success hids
    refine ⟨ord, hk, ?_⟩
    obtain ⟨hcomp, _, _, horder⟩ := (kahn_spec _ (builderGraph_wf ts)).1 ord hk
    have hedge : EdgeRel (builderGraph ts) t.t_id u.t_id :=
      edge_builderGraph.2 ⟨u, hu, rfl, hev⟩
    have huin : u.t_id ∈ ord :=
      hcomp _ (nodes_builderGraph_iff.2 ⟨u, hu, rfl⟩)
    exact (horder _ _ hedge huin).2

theorem claim_C6_determinism_witness :
    (([exP, exQ].map (fun t => t.t_id)).Nodup ∧ exP ∈ [exP, exQ] ∧
      exQ ∈ [exP, exQ] ∧ exP.t_deadline = exQ.t_deadline ∧
      exP.t_priority = exQ.t_priority ∧ exP.t_id < exQ.t_id) ∧
    (recompute [exP, exQ] = recompute [exP, exQ] ∧
    [exP, exQ].Sublist
      (sortG (getGroup (groupByDeadline [exP, exQ]) exP.t_deadline)) ∧
    (∃ u2 ∈ (recompute [exP, exQ]).1, u2.t_id = exQ.t_id ∧
      exP.t_id ∈ u2.t_dependencies) ∧
    ∃ ord, kahn (builderGraph [exP, exQ]) = some ord ∧
      listBefore exP.t_id exQ.t_id ord) :=
  ⟨⟨by decide, by decide, by decide, by decide, by decide, by decide⟩,
    claim_C6_determinism [exP, exQ] (by decide) exP exQ (by decide)
      (by decide) (by decide) (by decide) (by decide)⟩

/-- C7: recompute is idempotent — a second run on the unchanged post-state
reproduces the first run's dependencies, timestamps, and cycle flag
exactly, because the pipeline reads only `id`, `deadline`, `priority` and
`duration`, none of which it writes. -/
theorem claim_C7_idempotent (ts : List OTask) :
    recompute ((recompute ts).1) = recompute ts :=
  recompute_idem ts

/-- C8: after a successful recompute on a registry with unique ids, the
timestamp intervals of any two distinct tasks never overlap: the schedule
is strictly serial, one interval ending before the other starts. -/
theorem claim_C8_no_overlap (ts : List OTask)
    (hids : (ts.map (fun t => t.t_id)).Nodup) :
    (recompute ts).2 = false ∧
    ∀ t ∈ (recompute ts).1, ∀ u ∈ (recompute ts).1, t.t_id ≠ u.t_id →
      ∀ s1 e1 s2 e2, t.t_start_time = some s1 → t.t_end_time = some e1 →
        u.t_start_time = some s2 → u.t_end_time = some e2 →
        e1 ≤ s2 ∨ e2 ≤ s1 := by
  obtain ⟨ord, hk, hflag, hpost⟩ := recompute_post_times hids
  refine ⟨hflag, ?_⟩
  intro t ht u hu hne s1 e1 s2 e2 hs1 he1 hs2 he2
  obtain ⟨s1', e1', hs1', he1', hm1, _⟩ := hpost t ht
  obtain ⟨s2', e2', hs2', he2', hm2, _⟩ := hpost u hu
  rw [hs1] at hs1'
  rw [he1] at he1'
  rw [hs2] at hs2'
  rw [he2] at he2'
  cases hs1'
  cases he1'
  cases hs2'
  cases he2'
  have hpw := (scheduleLoop_pairwise (writeDeps ts) ord 540).imp
    (fun h => Or.inl h :
      ∀ {a b : Nat × Nat × Nat}, a.2.2 ≤ b.2.1 →
        (a.2.2 ≤ b.2.1 ∨ b.2.2 ≤ a.2.1))
  have hsym : Symmetric (fun a b : Nat × Nat × Nat =>
      a.2.2 ≤ b.2.1 ∨ b.2.2 ≤ a.2.1) := by
    intro a b h
    exact h.symm
  have hd : ((t.t_id, s1, e1) : Nat × Nat × Nat) ≠ (u.t_id, s2, e2) := by
    intro h
    exact hne (congrArg Prod.fst h)
  have := hpw.forall hsym hm1 hm2 hd
  exact this

theorem claim_C8_no_overlap_witness :
    (([exA, exB, exC].map (fun t => t.t_id)).Nodup) ∧
    ((recompute [exA, exB, exC]).2 = false ∧
    ∀ t ∈ (recompute [exA, exB, exC]).1,
      ∀ u ∈ (recompute [exA, exB, exC]).1, t.t_id ≠ u.t_id →
      ∀ s1 e1 s2 e2, t.t_start_time = some s1 → t.t_end_time = some e1 →
        u.t_start_time = some s2 → u.t_end_time = some e2 →
        e1 ≤ s2 ∨ e2 ≤ s1) :=
  ⟨by decide, claim_C8_no_overlap [exA, exB, exC] (by decide)⟩

/-- C9: after deleting an id and recomputing, the removed id appears
nowhere: no surviving task carries it, no dependency list mentions it, and
every id in any dependency list is the id of a task still present. -/
theorem claim_C9_delete (ts : List OTask) (rid : Nat) :
    ∀ t ∈ (delete_task ts rid).1,
      t.t_id ≠ rid ∧ rid ∉ t.t_dependencies ∧
      ∀ d ∈ t.t_dependencies, ∃ u ∈ (delete_task ts rid).1, u.t_id = d := by
  intro t ht
  have hids : ((ts.filter (fun t => !decide (t.t_id = rid))).map
      (fun t => t.t_id)) =
      ((delete_task ts rid).1).map (fun t => t.t_id) :=
    (recompute_ids _).symm
  have hmemid : ∀ j, j ∈ ((delete_task ts rid).1).map (fun t => t.t_id) →
      j ≠ rid ∧ ∃ u ∈ (delete_task ts rid).1, u.t_id = j := by
    intro j hj
    constructor
    · rw [← hids] at hj
      rcases List.mem_map.1 hj with ⟨t0, ht0, rfl⟩
      have := (List.mem_filter.1 ht0).2
      simpa using this
    · rcases List.mem_map.1 hj with ⟨u, hu, hju⟩
      exact ⟨u, hu, hju⟩
  have hdeps : t.t_dependencies =
      getDeps (replayDeps (events
        (ts.filter (fun t => !decide (t.t_id = rid))))) t.t_id :=
    recompute_post_deps _ t ht
  have hdep_in : ∀ d ∈ t.t_dependencies,
      d ∈ ((delete_task ts rid).1).map (fun t => t.t_id) := by
    intro d hd
    rw [hdeps] at hd
    rcases events_src_mem (mem_getDeps_replay.1 hd) with ⟨a, ha, rfl⟩
    rw [← hids]
    exact List.mem_map_of_mem _ ha
  refine ⟨?_, ?_, ?_⟩
  · exact (hmemid t.t_id (List.mem_map_of_mem _ ht)).1
  · intro hin
    exact (hmemid rid (hdep_in rid hin)).1 rfl
  · intro d hd
    exact (hmemid d (hdep_in d hd)).2

theorem claim_C9_delete_witness :
    (OTask.mk 3 "C" "C" 1 11 60 "pending" [1] (some 600)
        (some 660)).t_id ≠ 2 ∧
    (2 : Nat) ∉ (OTask.mk 3 "C" "C" 1 11 60 "pending" [1] (some 600)
        (some 660)).t_dependencies ∧
    ∀ d ∈ (OTask.mk 3 "C" "C" 1 11 60 "pending" [1] (some 600)
        (some 660)).t_dependencies,
      ∃ u ∈ (delete_task [exA, exB, exC] 2).1, u.t_id = d :=
  claim_C9_delete [exA, exB, exC] 2
    (OTask.mk 3 "C" "C" 1 11 60 "pending" [1] (some 600) (some 660))
    (by decide)

/-- C10: the completion handler marks "done" on every task whose id
matches, and changes nothing else — all other fields of matched tasks and
all fields of unmatched tasks are untouched, no recompute runs
(`t_dependencies`, `t_start_time`, `t_end_time` are preserved verbatim),
and if no task carries the id the registry is returned unchanged. -/
theorem claim_C10_complete_frame (ts : List OTask) (i : Nat) :
    List.Forall₂ (fun t t2 =>
      t2.t_id = t.t_id ∧ t2.t_name = t.t_name ∧
      t2.t_description = t.t_description ∧
      t2.t_priority = t.t_priority ∧ t2.t_deadline = t.t_deadline ∧
      t2.t_duration = t.t_duration ∧
      t2.t_dependencies = t.t_dependencies ∧
      t2.t_start_time = t.t_start_time ∧ t2.t_end_time = t.t_end_time ∧
      t2.t_status = (if t.t_id = i then "done" else t.t_status))
      ts (complete_task ts i) ∧
    ((∀ t ∈ ts, t.t_id ≠ i) → complete_task ts i = ts) := by
  constructor
  · apply forall2_map_self
    intro t _
    by_cases h : t.t_id = i
    · rw [if_pos h]
      exact ⟨rfl, rfl, rfl, rfl, rfl, rfl, rfl, rfl, rfl, by
        rw [if_pos h]
        rfl⟩
    · rw [if_neg h]
      exact ⟨rfl, rfl, rfl, rfl, rfl, rfl, rfl, rfl, rfl, by
        rw [if_neg h]⟩
  · intro hno
    unfold complete_task
    have h2 : ∀ t ∈ ts,
        (if t.t_id = i then setStatus t "done" else t) = id t := by
      intro t ht
      rw [if_neg (hno t ht)]
      rfl
    rw [List.map_congr_left h2, List.map_id]

theorem claim_C10_complete_frame_witness :
    List.Forall₂ (fun t t2 =>
      t2.t_id = t.t_id ∧ t2.t_name = t.t_name ∧
      t2.t_description = t.t_description ∧
      t2.t_priority = t.t_priority ∧ t2.t_deadline = t.t_deadline ∧
      t2.t_duration = t.t_duration ∧
      t2.t_dependencies = t.t_dependencies ∧
      t2.t_start_time = t.t_start_time ∧ t2.t_end_time = t.t_end_time ∧
      t2.t_status = (if t.t_id = 1 then "done" else t.t_status))
      [exA, exB] (complete_task [exA, exB] 1) ∧
    ((∀ t ∈ [exA, exB], t.t_id ≠ 1) → complete_task [exA, exB] 1 = [exA, exB]) :=
  claim_C10_complete_frame [exA, exB] 1
